import Mathlib

/-!
Verification of the flow-algorithm helper functions of the Dinitz tutorial
notebook (`src/content/algorithms/flow/dinitz_alg.ipynb`).

The notebook's helpers operate on `networkx.DiGraph` objects whose edges
carry an integer `capacity` attribute, and on Python dicts.  We embed them
shallowly:

* a directed graph is a list of nodes plus a list of `(u, v, capacity)`
  edges, both in insertion order (networkx preserves insertion order);
* a Python dict is an association list in insertion order; updating an
  existing key keeps its position, exactly like a dict;
* Python subscript errors (`KeyError`, `NetworkXError`, `ValueError`) are
  modelled with `Except String`;
* Python `while` loops are modelled with an explicit iteration bound
  (`fuel`); running out of fuel yields a distinguished error that the real
  code can only mirror by diverging.

Nodes are `Nat` (Python node labels are opaque hashables), capacities and
flow values are `Int` (the tutorial uses Python ints).
-/

namespace Dinitz

/-- Dict lookup: first binding wins (a Python dict has unique keys, so for
lists with `Nodup` keys this is exactly dict access). -/
def lk {κ β : Type} [DecidableEq κ] : List (κ × β) → κ → Option β
  | [], _ => none
  | (a, b) :: r, k => if a = k then some b else lk r k

/-- Dict update: replace the value of an existing key in place (keeping its
position, as a Python dict does), append a new binding otherwise. -/
def upd {κ β : Type} [DecidableEq κ] : List (κ × β) → κ → β → List (κ × β)
  | [], k, v => [(k, v)]
  | (a, b) :: r, k, v => if a = k then (k, v) :: r else (a, b) :: upd r k v

/-- A directed graph with integer edge capacities: `nx.DiGraph` with a
`capacity` attribute on every edge.  `nodes` and `edges` are kept in
insertion order. -/
structure Graph where
  nodes : List Nat
  edges : List (Nat × Nat × Int)
deriving DecidableEq

/-- Capacity lookup on a raw edge list: `G[u][v]["capacity"]`, `none` when
the edge is absent (Python raises `KeyError`). -/
def lkCap : List (Nat × Nat × Int) → Nat → Nat → Option Int
  | [], _, _ => none
  | (a, b, c) :: r, u, v => if a = u ∧ b = v then some c else lkCap r u v

/-- `G[u][v]["capacity"]` as an `Option`. -/
def capAt (G : Graph) (u v : Nat) : Option Int :=
  lkCap G.edges u v

/-- Capacity with default 0 for an absent edge. -/
def capD (G : Graph) (u v : Nat) : Int :=
  (capAt G u v).getD 0

/-- `G.has_edge(u, v)`. -/
def hasEdge (G : Graph) (u v : Nat) : Bool :=
  (capAt G u v).isSome

/-- `G.successors(u)`: out-neighbours of `u` in adjacency insertion order. -/
def succs (G : Graph) (u : Nat) : List Nat :=
  G.edges.filterMap (fun e => if e.1 = u then some e.2.1 else none)

/-- `G.predecessors(v)`: in-neighbours of `v` in insertion order. -/
def preds (G : Graph) (v : Nat) : List Nat :=
  G.edges.filterMap (fun e => if e.2.1 = v then some e.1 else none)

/-- Add `d` to the capacity of the (first matching) edge `(u, v)`;
the identity when the edge is absent. -/
def addCapE : List (Nat × Nat × Int) → Nat → Nat → Int → List (Nat × Nat × Int)
  | [], _, _, _ => []
  | (a, b, c) :: r, u, v, d =>
    if a = u ∧ b = v then (a, b, c + d) :: r else (a, b, c) :: addCapE r u v d

/-- `H[u][v]["capacity"] += d`: `KeyError` when the edge is absent. -/
def adjAddCap (H : Graph) (u v : Nat) (d : Int) : Except String Graph :=
  if (capAt H u v).isSome then
    .ok { nodes := H.nodes, edges := addCapE H.edges u v d }
  else .error "KeyError"

/-- `H.add_edge(u, v, capacity := c)`: appends the edge and adds any missing
endpoint to the node list (the `etype` drawing attribute is not modelled). -/
def addEdge (H : Graph) (u v : Nat) (c : Int) : Graph :=
  { nodes :=
      (fun ns => if v ∈ ns then ns else ns ++ [v])
        (if u ∈ H.nodes then H.nodes else H.nodes ++ [u]),
    edges := H.edges ++ [(u, v, c)] }

/-- The body of `residual_graph`'s loop for one flow item `((u, v), f)`:
read `G[u][v]["capacity"]`, raise when `f` exceeds it, then
`H[u][v]["capacity"] -= f` and either `H[v][u]["capacity"] += f` or
`H.add_edge(v, u, capacity=f)`. -/
def residual_step (G : Graph) (H : Graph) (e : (Nat × Nat) × Int) :
    Except String Graph :=
  match capAt G e.1.1 e.1.2 with
  | none => .error "KeyError"
  | some c =>
    if e.2 > c then .error "ValueError: flow exceeds the capacity of the edge"
    else
      match adjAddCap H e.1.1 e.1.2 (-e.2) with
      | .error m => .error m
      | .ok H1 =>
        if hasEdge H1 e.1.2 e.1.1 then adjAddCap H1 e.1.2 e.1.1 e.2
        else .ok (addEdge H1 e.1.2 e.1.1 e.2)

/-- `residual_graph(G, flow)` from the notebook: `H = G.copy()` (value
semantics here), then the loop over the flow dict. -/
def residual_graph (G : Graph) (flow : List ((Nat × Nat) × Int)) :
    Except String Graph :=
  flow.foldlM (residual_step G) G

/-- `residual_graph` called on a graph object held in a store of graph
objects (`networkx` graphs are mutable heap objects; a store models object
identity).  `H = G.copy()` allocates a fresh object, all updates land on the
copy, and the function returns a reference to the copy. -/
def residual_graph_heap (store : List Graph) (r : Nat)
    (flow : List ((Nat × Nat) × Int)) : Except String (List Graph × Nat) :=
  match store.get? r with
  | none => .error "invalid reference"
  | some G =>
    match residual_graph G flow with
    | .error m => .error m
    | .ok H => .ok (store ++ [H], store.length)

/-- `flow[(i, v)] if (i, v) in flow else 0` / `flow.get((u, v), 0)`. -/
def flowGet (flow : List ((Nat × Nat) × Int)) (k : Nat × Nat) : Int :=
  (lk flow k).getD 0

/-- `math.isclose(a, b)` with the default `rel_tol=1e-9`, `abs_tol=0.0`,
evaluated exactly on integers: `|a - b| <= 1e-9 * max(|a|, |b|)`. -/
def isclose (a b : Int) : Bool :=
  (a - b).natAbs * 1000000000 ≤ max a.natAbs b.natAbs

/-- Total flow into `v` counted by `check_valid_flow`:
`sum(flow[(i, v)] if (i, v) in flow else 0 for i in G.predecessors(v))`. -/
def inflowAt (G : Graph) (flow : List ((Nat × Nat) × Int)) (v : Nat) : Int :=
  ((preds G v).map (fun i => flowGet flow (i, v))).sum

/-- Total flow out of `v` counted by `check_valid_flow`:
`sum(flow[(v, o)] if (v, o) in flow else 0 for o in G.successors(v))`. -/
def outflowAt (G : Graph) (flow : List ((Nat × Nat) × Int)) (v : Nat) : Int :=
  ((succs G v).map (fun o => flowGet flow (v, o))).sum

/-- The violations `check_valid_flow` reports.  The Python function records
them on the returned drawing graph `H` (edge colour red / node colour red)
and prints a message; we model exactly those reports. -/
structure FlowReport where
  capViol : List (Nat × Nat)
  consViol : List Nat
deriving DecidableEq

/-- One iteration of `check_valid_flow`'s loop over a flow item
`((u, v), f)`: read `G[u][v]["capacity"]` (a `KeyError` when absent), flag
the edge when `f` exceeds it, and when `v` is neither source nor target flag
`v` when incoming and outgoing flow are not `math.isclose`. -/
def cvf_step (G : Graph) (flow : List ((Nat × Nat) × Int))
    (source_node target_node : Nat) (r : FlowReport) (e : (Nat × Nat) × Int) :
    Except String FlowReport :=
  match capAt G e.1.1 e.1.2 with
  | none => .error "KeyError"
  | some c =>
    let r1 : FlowReport :=
      if e.2 > c then ⟨r.capViol ++ [e.1], r.consViol⟩ else r
    if e.1.2 ≠ source_node ∧ e.1.2 ≠ target_node then
      if ¬ isclose (inflowAt G flow e.1.2) (outflowAt G flow e.1.2) then
        .ok ⟨r1.capViol, r1.consViol ++ [e.1.2]⟩
      else .ok r1
    else .ok r1

/-- `check_valid_flow(G, flow, source_node, target_node)` from the notebook,
returning the reported violations. -/
def check_valid_flow (G : Graph) (flow : List ((Nat × Nat) × Int))
    (source_node target_node : Nat) : Except String FlowReport :=
  flow.foldlM (cvf_step G flow source_node target_node) ⟨[], []⟩

/-- State of `level_bfs`'s loop: the `parents` and `level` dicts and the
`deque`. -/
structure BfsState where
  parents : List (Nat × Nat)
  level : List (Nat × Nat)
  queue : List Nat
deriving DecidableEq

/-- The body of `level_bfs`'s inner `for v in R.successors(u)` loop:
`if (v not in parents) and (R[u][v]["capacity"] > 0)` then record
`parents[v] = u`, `level[v] = level[u] + 1` and enqueue `v`.  `v` ranges
over successors of `u`, so `R[u][v]` always exists and `level[u]` is set
for every dequeued node; the `getD 0` defaults are never reached. -/
def bfsVisit (R : Graph) (u : Nat) (st : BfsState) (v : Nat) : BfsState :=
  if (lk st.parents v).isNone ∧ 0 < capD R u v then
    { parents := st.parents ++ [(v, u)],
      level := upd st.level v ((lk st.level u).getD 0 + 1),
      queue := st.queue ++ [v] }
  else st

/-- The `while queue:` loop of `level_bfs`.  `fuel` bounds the number of
iterations (each iteration pops one node; nodes are enqueued at most once
after entering `parents`, plus the source, so `|nodes| + 2` always
suffices).  `R.successors(u)` raises when `u` is not a node of `R`. -/
def bfsLoop (R : Graph) (target_node : Nat) :
    Nat → BfsState → Except String BfsState
  | 0, _ => .error "out of fuel"
  | fuel + 1, st =>
    match st.queue with
    | [] => .ok st
    | u :: rest =>
      if (lk st.parents target_node).isSome then .ok st
      else if u ∈ R.nodes then
        bfsLoop R target_node fuel
          ((succs R u).foldl (bfsVisit R u)
            { parents := st.parents, level := st.level, queue := rest })
      else .error "NetworkXError: the node is not in the digraph"

/-- `level_bfs(R, flow, source_node, target_node)` from the notebook.  The
`flow` argument is part of the Python signature but unused by the body. -/
def level_bfs (R : Graph) (flow : List ((Nat × Nat) × Int))
    (source_node target_node : Nat) :
    Except String (List (Nat × Nat) × List (Nat × Nat)) :=
  match bfsLoop R target_node (R.nodes.length + 2)
      { parents := [], level := [(source_node, 0)], queue := [source_node] } with
  | .error m => .error m
  | .ok st => .ok (st.parents, st.level)

/-- The `while u != source_node:` loop of `aug_path_dfs`: append `u` to the
path, step to `v = parents[u]` (`KeyError` when absent), and lower `f` by
`R.pred[u][v]["capacity"] - flow.get((u, v), 0)` (`R.pred[u][v]` is the edge
`(v, u)` of `R`; `KeyError` when absent).  `fuel` bounds the iterations;
a cyclic `parents` chain makes the Python loop diverge. -/
def augLoop (R : Graph) (parents : List (Nat × Nat))
    (flow : List ((Nat × Nat) × Int)) (source_node : Nat) :
    Nat → Nat → List Nat → Int → Except String (List Nat × Int)
  | 0, _, _, _ => .error "out of fuel"
  | fuel + 1, u, path, f =>
    if u = source_node then .ok (path ++ [source_node], f)
    else
      match lk parents u with
      | none => .error "KeyError: parents"
      | some v =>
        match capAt R v u with
        | none => .error "KeyError: R.pred"
        | some c =>
          augLoop R parents flow source_node fuel v (path ++ [u])
            (min f (c - flowGet flow (u, v)))

/-- `aug_path_dfs(parents, flow, source_node, target_node)` from the
notebook.  The body reads the module-level residual graph `R`, passed here
explicitly; `f` is seeded with `3 * max(flow.values())` (a `ValueError` on
an empty flow dict). -/
def aug_path_dfs (R : Graph) (parents : List (Nat × Nat))
    (flow : List ((Nat × Nat) × Int)) (source_node target_node : Nat)
    (fuel : Nat) : Except String (List Nat × Int) :=
  match flow.map Prod.snd with
  | [] => .error "ValueError: max() arg is an empty sequence"
  | c :: cs =>
    augLoop R parents flow source_node fuel target_node []
      (3 * List.foldl max c cs)

/-- One hop of positive residual capacity: the edges `level_bfs` traverses
(`R[u][v]["capacity"] > 0`; a positive capacity entails the edge exists). -/
def posStep (R : Graph) (u v : Nat) : Prop :=
  0 < capD R u v

instance (R : Graph) (u v : Nat) : Decidable (posStep R u v) := by
  unfold posStep; infer_instance

/-- `v` is reachable from `s` in exactly `n` positive-residual hops. -/
def posReachLen (R : Graph) (s : Nat) : Nat → Nat → Prop
  | 0, v => v = s
  | n + 1, v => ∃ w, posReachLen R s n w ∧ posStep R w v

/-- `d` is the shortest positive-residual hop distance from `s` to `v`. -/
def minReach (R : Graph) (s v d : Nat) : Prop :=
  posReachLen R s d v ∧ ∀ k, k < d → ¬ posReachLen R s k v

/-! ### Association-list lemmas -/

theorem lk_append_of_some {κ β : Type} [DecidableEq κ] {l₁ : List (κ × β)}
    (l₂ : List (κ × β)) {k : κ} {v : β} (h : lk l₁ k = some v) :
    lk (l₁ ++ l₂) k = some v := by
  induction l₁ with
  | nil => simp [lk] at h
  | cons p r ih =>
    obtain ⟨a, b⟩ := p
    simp only [lk, List.cons_append] at h ⊢
    split at h
    · simpa [*] using h
    · simp only [*, if_neg, reduceIte]
      exact ih h

theorem lk_append_of_none {κ β : Type} [DecidableEq κ] {l₁ : List (κ × β)}
    (l₂ : List (κ × β)) {k : κ} (h : lk l₁ k = none) :
    lk (l₁ ++ l₂) k = lk l₂ k := by
  induction l₁ with
  | nil => simp
  | cons p r ih =>
    obtain ⟨a, b⟩ := p
    simp only [lk, List.cons_append] at h ⊢
    split at h
    · exact absurd h (by simp)
    · simp only [*, reduceIte]
      exact ih h

theorem lk_upd_self {κ β : Type} [DecidableEq κ] (l : List (κ × β)) (k : κ)
    (v : β) : lk (upd l k v) k = some v := by
  induction l with
  | nil => simp [lk, upd]
  | cons p r ih =>
    obtain ⟨a, b⟩ := p
    by_cases hak : a = k
    · simp [lk, upd, hak]
    · simp [lk, upd, hak, ih]

theorem lk_upd_ne {κ β : Type} [DecidableEq κ] (l : List (κ × β)) {k k' : κ}
    (v : β) (h : k' ≠ k) : lk (upd l k v) k' = lk l k' := by
  have hk : ¬ k = k' := fun h' => h h'.symm
  induction l with
  | nil => simp [lk, upd, hk]
  | cons p r ih =>
    obtain ⟨a, b⟩ := p
    by_cases hak : a = k
    · subst hak
      simp [lk, upd, hk]
    · simp only [upd, hak, reduceIte, lk]
      split <;> simp [ih]

theorem lk_mem_of_some {κ β : Type} [DecidableEq κ] {l : List (κ × β)}
    {k : κ} {v : β} (h : lk l k = some v) : (k, v) ∈ l := by
  induction l with
  | nil => simp [lk] at h
  | cons p r ih =>
    obtain ⟨a, b⟩ := p
    simp only [lk] at h
    split at h
    · obtain ⟨rfl, rfl⟩ := by simpa using h.symm
      simp [*]
    · exact List.mem_cons_of_mem _ (ih h)

theorem lk_isSome_of_mem {κ β : Type} [DecidableEq κ] {l : List (κ × β)}
    {k : κ} {v : β} (h : (k, v) ∈ l) : (lk l k).isSome := by
  induction l with
  | nil => simp at h
  | cons p r ih =>
    obtain ⟨a, b⟩ := p
    rcases List.mem_cons.1 h with h' | h'
    · obtain ⟨rfl, rfl⟩ := Prod.mk.injEq .. ▸ h'
      simp [lk]
    · by_cases hak : a = k
      · simp [lk, hak]
      · simpa [lk, hak] using ih h'

/-! ### Capacity-list lemmas -/

theorem lkCap_append_of_some {es₁ : List (Nat × Nat × Int)}
    (es₂ : List (Nat × Nat × Int)) {u v : Nat} {c : Int}
    (h : lkCap es₁ u v = some c) : lkCap (es₁ ++ es₂) u v = some c := by
  induction es₁ with
  | nil => simp [lkCap] at h
  | cons e r ih =>
    obtain ⟨a, b, w⟩ := e
    simp only [lkCap, List.cons_append] at h ⊢
    split at h
    · simpa [*] using h
    · simp only [*, reduceIte]
      exact ih h

theorem lkCap_append_of_none {es₁ : List (Nat × Nat × Int)}
    (es₂ : List (Nat × Nat × Int)) {u v : Nat}
    (h : lkCap es₁ u v = none) : lkCap (es₁ ++ es₂) u v = lkCap es₂ u v := by
  induction es₁ with
  | nil => simp
  | cons e r ih =>
    obtain ⟨a, b, w⟩ := e
    simp only [lkCap, List.cons_append] at h ⊢
    split at h
    · exact absurd h (by simp)
    · simp only [*, reduceIte]
      exact ih h

theorem lkCap_addCapE (es : List (Nat × Nat × Int)) (u v : Nat) (d : Int)
    (x y : Nat) :
    lkCap (addCapE es u v d) x y =
      if x = u ∧ y = v then (lkCap es x y).map (· + d) else lkCap es x y := by
  induction es with
  | nil => simp [lkCap, addCapE]
  | cons e r ih =>
    obtain ⟨a, b, w⟩ := e
    by_cases hab : a = u ∧ b = v
    · obtain ⟨rfl, rfl⟩ := hab
      by_cases hxy : x = a ∧ y = b
      · obtain ⟨rfl, rfl⟩ := hxy
        simp [addCapE, lkCap]
      · have hax : ¬ (a = x ∧ b = y) := fun h => hxy ⟨h.1.symm, h.2.symm⟩
        simp [addCapE, lkCap, hxy, hax]
    · simp only [addCapE, hab, reduceIte, lkCap]
      by_cases hax : a = x ∧ b = y
      · obtain ⟨rfl, rfl⟩ := hax
        simp [hab]
      · simp [hax, ih]

theorem lkCap_some_mem {es : List (Nat × Nat × Int)} {u v : Nat} {c : Int}
    (h : lkCap es u v = some c) : (u, v, c) ∈ es := by
  induction es with
  | nil => simp [lkCap] at h
  | cons e r ih =>
    obtain ⟨a, b, w⟩ := e
    simp only [lkCap] at h
    split at h
    · rename_i hab
      obtain ⟨rfl, rfl⟩ := hab
      simp [show w = c from by simpa using h]
    · exact List.mem_cons_of_mem _ (ih h)

/-- A positive capacity means the edge is present, hence its head is a
successor. -/
theorem posStep_mem_succs {R : Graph} {u v : Nat} (h : posStep R u v) :
    v ∈ succs R u := by
  unfold posStep capD capAt at h
  rcases hc : lkCap R.edges u v with _ | c
  · simp [hc] at h
  · have hm := lkCap_some_mem hc
    simp only [succs, List.mem_filterMap]
    exact ⟨(u, v, c), hm, by simp⟩

/-! ### The residual-graph construction -/

/-- Effect of one `residual_graph` loop iteration on every capacity, given
the flow entry references an edge of `G` whose capacity it does not
exceed. -/
theorem residual_step_ok {G H : Graph} {u v : Nat} {f c : Int}
    (hc : capAt G u v = some c) (hf : f ≤ c)
    (hpres : ∀ x y, (capAt G x y).isSome → (capAt H x y).isSome) :
    ∃ H', residual_step G H ((u, v), f) = .ok H' ∧
      ((u ≠ v → capAt H' u v = (capAt H u v).map (· - f)) ∧
       (u ≠ v → capAt H' v u = some (capD H v u + f)) ∧
       (∀ x y, ¬ (x = u ∧ y = v) → ¬ (x = v ∧ y = u) →
          capAt H' x y = capAt H x y) ∧
       (u = v → ∀ x y, capAt H' x y = capAt H x y)) := by
  have hHuv : (capAt H u v).isSome := hpres u v (by simp [hc])
  have hnf : ¬ f > c := not_lt.2 hf
  rcases hH : capAt H u v with _ | cH
  · simp [hH] at hHuv
  set H1 : Graph := { nodes := H.nodes, edges := addCapE H.edges u v (-f) } with hH1
  have hcap1 : ∀ x y, capAt H1 x y =
      if x = u ∧ y = v then (capAt H x y).map (· + (-f)) else capAt H x y := by
    intro x y
    simpa [hH1, capAt] using lkCap_addCapE H.edges u v (-f) x y
  have hstep : residual_step G H ((u, v), f) =
      (if hasEdge H1 v u then adjAddCap H1 v u f else .ok (addEdge H1 v u f)) := by
    simp only [residual_step, hc, hnf, reduceIte, adjAddCap, hHuv]
  by_cases huv : u = v
  · subst huv
    -- self-loop flow entry: subtract then add back on the same edge
    have h1uu : capAt H1 u u = some (cH + -f) := by simp [hcap1, hH]
    have hHe : hasEdge H1 u u = true := by simp [hasEdge, h1uu]
    have : residual_step G H ((u, u), f) = adjAddCap H1 u u f := by
      rw [hstep, hHe]; simp
    have hall : ∀ x y,
        capAt { nodes := H1.nodes, edges := addCapE H1.edges u u f } x y =
          capAt H x y := by
      intro x y
      show lkCap (addCapE H1.edges u u f) x y = lkCap H.edges x y
      have hE : H1.edges = addCapE H.edges u u (-f) := rfl
      rw [lkCap_addCapE, hE, lkCap_addCapE]
      by_cases hxy : x = u ∧ y = u
      · rw [if_pos hxy, if_pos hxy, Option.map_map]
        have hid : ((fun z => z + f) ∘ fun z => z + -f) = id := by
          funext z
          simp
        rw [hid, Option.map_id]
        rfl
      · rw [if_neg hxy, if_neg hxy]
    refine ⟨{ nodes := H1.nodes, edges := addCapE H1.edges u u f }, ?_, ?_⟩
    · rw [this]
      simp [adjAddCap, h1uu]
    · exact ⟨fun h => absurd rfl h, fun h => absurd rfl h,
        fun x y _ _ => hall x y, fun _ x y => hall x y⟩
  · -- distinct endpoints
    have h1vu : capAt H1 v u = capAt H v u := by
      rw [hcap1, if_neg (fun h => huv h.2)]
    have h1uv : capAt H1 u v = some (cH + -f) := by
      rw [hcap1, if_pos ⟨rfl, rfl⟩, hH]
      rfl
    rcases hHvu : capAt H v u with _ | cvu
    · -- reverse edge absent: add_edge creates it with capacity f
      have hHe : hasEdge H1 v u = false := by
        show (capAt H1 v u).isSome = false
        rw [h1vu, hHvu]
        rfl
      refine ⟨addEdge H1 v u f, ?_, ?_, ?_, ?_, fun h => absurd h huv⟩
      · rw [hstep, hHe]
        simp
      · intro _
        have h4 : capAt (addEdge H1 v u f) u v = some (cH + -f) := by
          show lkCap (H1.edges ++ [(v, u, f)]) u v = _
          exact lkCap_append_of_some _ h1uv
        rw [h4]
        simp only [hH, Option.map_some', Option.some.injEq]
        ring
      · intro _
        have h4 : capAt (addEdge H1 v u f) v u = some f := by
          show lkCap (H1.edges ++ [(v, u, f)]) v u = _
          rw [lkCap_append_of_none _ (h1vu.trans hHvu)]
          simp [lkCap]
        rw [h4, capD, hHvu]
        simp
      · intro x y hx hy
        have hxyvu : lkCap [(v, u, f)] x y = none := by
          simp only [lkCap]
          rw [if_neg (fun h : v = x ∧ u = y => hy ⟨h.1.symm, h.2.symm⟩)]
        show lkCap (H1.edges ++ [(v, u, f)]) x y = capAt H x y
        rcases h1 : capAt H1 x y with _ | c1
        · rw [lkCap_append_of_none _ h1, hxyvu, ← h1, hcap1, if_neg hx]
        · rw [lkCap_append_of_some _ h1, ← h1, hcap1, if_neg hx]
    · -- reverse edge present: merge the flow into it
      have h1vusome : (capAt H1 v u).isSome := by
        rw [h1vu, hHvu]
        rfl
      have hHe : hasEdge H1 v u = true := h1vusome
      refine ⟨{ nodes := H1.nodes, edges := addCapE H1.edges v u f }, ?_, ?_, ?_, ?_,
        fun h => absurd h huv⟩
      · rw [hstep, hHe]
        simp only [adjAddCap, h1vusome, reduceIte]
      · intro _
        have h6 : lkCap (addCapE H1.edges v u f) u v = some (cH + -f) := by
          rw [lkCap_addCapE, if_neg (fun h : u = v ∧ v = u => huv h.1)]
          exact h1uv
        show lkCap (addCapE H1.edges v u f) u v = _
        rw [h6]
        simp only [hH, Option.map_some', Option.some.injEq]
        ring
      · intro _
        show lkCap (addCapE H1.edges v u f) v u = some (capD H v u + f)
        rw [lkCap_addCapE, if_pos ⟨rfl, rfl⟩]
        have h5 : lkCap H1.edges v u = some cvu := h1vu.trans hHvu
        rw [h5, capD, hHvu]
        rfl
      · intro x y hx hy
        show lkCap (addCapE H1.edges v u f) x y = capAt H x y
        rw [lkCap_addCapE, if_neg hy]
        show capAt H1 x y = capAt H x y
        rw [hcap1, if_neg hx]

theorem error_bind {α β : Type} (m : String) (g : α → Except String β) :
    (Except.error m >>= g) = Except.error m := rfl

theorem ok_bind {α β : Type} (a : α) (g : α → Except String β) :
    (Except.ok a >>= g) = g a := rfl

theorem lk_eq_none_of_not_mem_keys {κ β : Type} [DecidableEq κ]
    {l : List (κ × β)} {k : κ} (h : k ∉ l.map Prod.fst) : lk l k = none := by
  induction l with
  | nil => rfl
  | cons p r ih =>
    obtain ⟨a, b⟩ := p
    simp only [List.map_cons, List.mem_cons] at h
    push_neg at h
    have hne : ¬ a = k := fun h' => h.1 (Eq.symm h')
    simp only [lk, if_neg hne]
    exact ih h.2

/-- Presence of an edge is preserved by one `residual_graph` iteration. -/
theorem residual_step_pres {G H H' : Graph} {u v : Nat} {f c : Int}
    (hc : capAt G u v = some c) (hf : f ≤ c)
    (hpres : ∀ x y, (capAt G x y).isSome → (capAt H x y).isSome)
    (hstep : residual_step G H ((u, v), f) = .ok H') :
    ∀ x y, (capAt H x y).isSome → (capAt H' x y).isSome := by
  obtain ⟨H'', hH'', hd1, hd2, hd3, hd4⟩ := residual_step_ok hc hf hpres
  have hEq : H'' = H' := Except.ok.inj (hH''.symm.trans hstep)
  subst hEq
  intro x y hxy
  by_cases huv : u = v
  · rw [hd4 huv x y]
    exact hxy
  · by_cases hx : x = u ∧ y = v
    · obtain ⟨rfl, rfl⟩ := hx
      rw [hd1 huv]
      simpa using hxy
    · by_cases hy : x = v ∧ y = u
      · obtain ⟨rfl, rfl⟩ := hy
        rw [hd2 huv]
        rfl
      · rw [hd3 x y hx hy]
        exact hxy

/-- `residual_graph`'s loop succeeds exactly when every flow entry lies on
an edge of `G` and does not exceed that edge's capacity; the sign of the
capacities is never examined. -/
theorem residual_foldlM_ok_iff (G : Graph) :
    ∀ (rest : List ((Nat × Nat) × Int)) (H : Graph),
      (∀ x y, (capAt G x y).isSome → (capAt H x y).isSome) →
      ((∃ H', List.foldlM (residual_step G) H rest = .ok H') ↔
        ∀ e ∈ rest, ∃ c, capAt G e.1.1 e.1.2 = some c ∧ e.2 ≤ c) := by
  intro rest
  induction rest with
  | nil =>
    intro H _
    exact ⟨fun _ e he => absurd he (List.not_mem_nil e), fun _ => ⟨H, rfl⟩⟩
  | cons e rest' ih =>
    intro H hpres
    obtain ⟨⟨u, v⟩, f⟩ := e
    rcases hc : capAt G u v with _ | c
    · have hstep : residual_step G H ((u, v), f) = .error "KeyError" := by
        simp [residual_step, hc]
      constructor
      · rintro ⟨H', hH'⟩
        rw [List.foldlM_cons, hstep, error_bind] at hH'
        exact Except.noConfusion hH'
      · intro hall
        obtain ⟨c, hc', _⟩ := hall ((u, v), f) (by simp)
        simp only at hc'
        rw [hc] at hc'
        exact absurd hc' (by simp)
    · by_cases hfc : f ≤ c
      · obtain ⟨H1, hH1, _⟩ := residual_step_ok hc hfc hpres
        have hpres1 : ∀ x y, (capAt G x y).isSome → (capAt H1 x y).isSome :=
          fun x y hxy => residual_step_pres hc hfc hpres hH1 x y (hpres x y hxy)
        have hbind : List.foldlM (residual_step G) H (((u, v), f) :: rest') =
            List.foldlM (residual_step G) H1 rest' := by
          rw [List.foldlM_cons, hH1, ok_bind]
        rw [hbind]
        constructor
        · intro hex
          intro e he
          rcases List.mem_cons.1 he with rfl | he'
          · exact ⟨c, hc, hfc⟩
          · exact ((ih H1 hpres1).1 hex) e he'
        · intro hall
          exact (ih H1 hpres1).2 (fun e he => hall e (List.mem_cons_of_mem _ he))
      · have hstep : residual_step G H ((u, v), f) =
            .error "ValueError: flow exceeds the capacity of the edge" := by
          simp [residual_step, hc, lt_of_not_ge hfc]
        constructor
        · rintro ⟨H', hH'⟩
          rw [List.foldlM_cons, hstep, error_bind] at hH'
          exact Except.noConfusion hH'
        · intro hall
          obtain ⟨c', hc', hfc'⟩ := hall ((u, v), f) (by simp)
          simp only at hc'
          rw [hc] at hc'
          obtain rfl : c = c' := by simpa using hc'
          exact absurd hfc' hfc

/-- Capacity bookkeeping of `residual_graph`'s loop: starting from a graph
`H`, each processed flow entry `((u, v), f)` moves `f` units of capacity
from `(u, v)` to `(v, u)`.  The final capacity of `(x, y)` is its initial
capacity (0 when absent) minus the flow on `(x, y)` plus the flow on
`(y, x)`, the edge being present exactly when it was present in `H` or the
flow dict mentions `(y, x)`. -/
theorem residual_fold_caps (G : Graph) :
    ∀ (rest : List ((Nat × Nat) × Int)) (H : Graph),
      (rest.map Prod.fst).Nodup →
      (∀ e ∈ rest, ∃ c, capAt G e.1.1 e.1.2 = some c ∧ e.2 ≤ c) →
      (∀ x y, (capAt G x y).isSome → (capAt H x y).isSome) →
      ∀ H', List.foldlM (residual_step G) H rest = .ok H' →
      ∀ x y, capAt H' x y =
        if (capAt H x y).isSome ∨ (lk rest (y, x)).isSome then
          some (capD H x y - flowGet rest (x, y) + flowGet rest (y, x))
        else none := by
  intro rest
  induction rest with
  | nil =>
    intro H _ _ _ H' hH' x y
    obtain rfl : H = H' := Except.ok.inj hH'
    simp only [lk, Option.isSome_none, Bool.false_eq_true, or_false, flowGet,
      Option.getD_none, sub_zero, add_zero]
    rcases h : capAt H x y with _ | c
    · simp [h]
    · simp [h, capD]
  | cons e rest' ih =>
    intro H hnd hok hpres H' hH' x y
    obtain ⟨⟨u, v⟩, f⟩ := e
    obtain ⟨c, hc, hfc⟩ := hok ((u, v), f) (by simp)
    simp only at hc hfc
    obtain ⟨H1, hH1, hd1, hd2, hd3, hd4⟩ := residual_step_ok hc hfc hpres
    have hpres1 : ∀ a b, (capAt G a b).isSome → (capAt H1 a b).isSome :=
      fun a b hab => residual_step_pres hc hfc hpres hH1 a b (hpres a b hab)
    rw [List.map_cons] at hnd
    have hnd' : (rest'.map Prod.fst).Nodup := hnd.of_cons
    have hkey : (u, v) ∉ rest'.map Prod.fst := (List.nodup_cons.1 hnd).1
    have hlk0 : lk rest' (u, v) = none := lk_eq_none_of_not_mem_keys hkey
    have hrec := ih H1 hnd' (fun e he => hok e (List.mem_cons_of_mem _ he)) hpres1 H'
      (by rw [List.foldlM_cons, hH1, ok_bind] at hH'; exact hH') x y
    have hHuv : (capAt H u v).isSome := hpres u v (by simp [hc])
    have hFhead : ∀ k : Nat × Nat, lk (((u, v), f) :: rest') k =
        if (u, v) = k then some f else lk rest' k := fun k => rfl
    by_cases huv : u = v
    · -- self-loop entry: the net capacity change is zero
      subst huv
      have hcapeq : ∀ a b, capAt H1 a b = capAt H a b := hd4 rfl
      have hcapDeq : ∀ a b, capD H1 a b = capD H a b := by
        intro a b
        unfold capD
        rw [hcapeq a b]
      by_cases hxy : x = u ∧ y = u
      · rw [hxy.1, hxy.2] at hrec ⊢
        rw [hrec, hcapeq u u, if_pos (Or.inl hHuv), if_pos (Or.inl hHuv), hcapDeq u u]
        congr 1
        ring
      · have hne1 : ¬ (((u, u) : Nat × Nat) = (x, y)) := by
          intro h
          exact hxy ⟨(congrArg Prod.fst h).symm, (congrArg Prod.snd h).symm⟩
        have hne2 : ¬ (((u, u) : Nat × Nat) = (y, x)) := by
          intro h
          exact hxy ⟨(congrArg Prod.snd h).symm, (congrArg Prod.fst h).symm⟩
        rw [hrec, hcapeq x y, hcapDeq x y]
        have hF1 : flowGet (((u, u), f) :: rest') (x, y) = flowGet rest' (x, y) := by
          simp only [flowGet, hFhead, if_neg hne1]
        have hF2 : flowGet (((u, u), f) :: rest') (y, x) = flowGet rest' (y, x) := by
          simp only [flowGet, hFhead, if_neg hne2]
        have hF3 : lk (((u, u), f) :: rest') (y, x) = lk rest' (y, x) := by
          rw [hFhead, if_neg hne2]
        rw [hF1, hF2, hF3]
    · -- distinct endpoints
      have hvune : ¬ (((u, v) : Nat × Nat) = (v, u)) := by
        intro h
        exact huv (congrArg Prod.fst h)
      by_cases hfwd : x = u ∧ y = v
      · -- the forward edge of the processed entry
        rw [hfwd.1, hfwd.2] at hrec ⊢
        have h1 : capAt H1 u v = (capAt H u v).map (· - f) := hd1 huv
        have hc1some : (capAt H1 u v).isSome := by
          rw [h1]
          simpa using hHuv
        rw [hrec, if_pos (Or.inl hc1some), if_pos (Or.inl hHuv)]
        have hcapD1 : capD H1 u v = capD H u v - f := by
          rcases hcH : capAt H u v with _ | cH
          · rw [hcH] at hHuv
            exact absurd hHuv (by simp)
          · simp [capD, h1, hcH]
        have hF1 : flowGet (((u, v), f) :: rest') (u, v) = f := by
          simp [flowGet, hFhead]
        have hF2 : flowGet (((u, v), f) :: rest') (v, u) = flowGet rest' (v, u) := by
          simp only [flowGet, hFhead, if_neg hvune]
        have hF3 : flowGet rest' (u, v) = 0 := by
          simp [flowGet, hlk0]
        rw [hcapD1, hF1, hF2, hF3]
        congr 1
        ring
      · by_cases hrev : x = v ∧ y = u
        · -- the reverse edge of the processed entry
          rw [hrev.1, hrev.2] at hrec ⊢
          have h2 : capAt H1 v u = some (capD H v u + f) := hd2 huv
          have hc1some : (capAt H1 v u).isSome := by
            rw [h2]
            rfl
          have hcond : ((capAt H v u).isSome = true ∨
              (lk (((u, v), f) :: rest') (u, v)).isSome = true) := by
            right
            rw [hFhead, if_pos rfl]
            rfl
          rw [hrec, if_pos (Or.inl hc1some), if_pos hcond]
          have hcapD2 : capD H1 v u = capD H v u + f := by
            simp [capD, h2]
          have hF1 : flowGet (((u, v), f) :: rest') (u, v) = f := by
            simp [flowGet, hFhead]
          have hF2 : flowGet (((u, v), f) :: rest') (v, u) = flowGet rest' (v, u) := by
            simp only [flowGet, hFhead, if_neg hvune]
          have hF3 : flowGet rest' (u, v) = 0 := by
            simp [flowGet, hlk0]
          rw [hcapD2, hF1, hF2, hF3]
          congr 1
          ring
        · -- untouched pairs
          have hcapeq : capAt H1 x y = capAt H x y := hd3 x y hfwd hrev
          have hcapDeq : capD H1 x y = capD H x y := by
            unfold capD
            rw [hcapeq]
          have hne1 : ¬ (((u, v) : Nat × Nat) = (x, y)) := by
            intro h
            exact hfwd ⟨(congrArg Prod.fst h).symm, (congrArg Prod.snd h).symm⟩
          have hne2 : ¬ (((u, v) : Nat × Nat) = (y, x)) := by
            intro h
            exact hrev ⟨(congrArg Prod.snd h).symm, (congrArg Prod.fst h).symm⟩
          rw [hrec, hcapeq, hcapDeq]
          have hF1 : flowGet (((u, v), f) :: rest') (x, y) = flowGet rest' (x, y) := by
            simp only [flowGet, hFhead, if_neg hne1]
          have hF2 : flowGet (((u, v), f) :: rest') (y, x) = flowGet rest' (y, x) := by
            simp only [flowGet, hFhead, if_neg hne2]
          have hF3 : lk (((u, v), f) :: rest') (y, x) = lk rest' (y, x) := by
            rw [hFhead, if_neg hne2]
          rw [hF1, hF2, hF3]

/-- Top-level capacity description of `residual_graph` for a flow whose
entries lie on edges of `G` and respect their capacities. -/
theorem residual_graph_spec (G : Graph) (flow : List ((Nat × Nat) × Int))
    (hnd : (flow.map Prod.fst).Nodup)
    (hok : ∀ e ∈ flow, ∃ c, capAt G e.1.1 e.1.2 = some c ∧ e.2 ≤ c) :
    ∃ H, residual_graph G flow = .ok H ∧ ∀ x y,
      capAt H x y =
        if (capAt G x y).isSome ∨ (lk flow (y, x)).isSome then
          some (capD G x y - flowGet flow (x, y) + flowGet flow (y, x))
        else none := by
  obtain ⟨H, hH⟩ := (residual_foldlM_ok_iff G flow G (fun _ _ h => h)).2 hok
  exact ⟨H, hH, residual_fold_caps G flow G hnd hok (fun _ _ h => h) H hH⟩

theorem lk_of_mem_of_nodup {κ β : Type} [DecidableEq κ] {l : List (κ × β)}
    {k : κ} {v : β} (hnd : (l.map Prod.fst).Nodup) (h : (k, v) ∈ l) :
    lk l k = some v := by
  induction l with
  | nil => simp at h
  | cons p r ih =>
    obtain ⟨a, b⟩ := p
    rw [List.map_cons] at hnd
    rcases List.mem_cons.1 h with h' | h'
    · obtain ⟨rfl, rfl⟩ := Prod.mk.injEq .. ▸ h'
      simp [lk]
    · have hka : ¬ a = k := by
        intro h''
        subst h''
        exact (List.nodup_cons.1 hnd).1
          (List.mem_map.2 ⟨(a, v), h', rfl⟩)
      simp only [lk, if_neg hka]
      exact ih (List.nodup_cons.1 hnd).2 h'

instance {ε α : Type} [DecidableEq ε] [DecidableEq α] :
    DecidableEq (Except ε α) := fun x y =>
  match x, y with
  | .ok a, .ok b =>
    if h : a = b then .isTrue (by rw [h])
    else .isFalse (fun hc => h (Except.ok.inj hc))
  | .error a, .error b =>
    if h : a = b then .isTrue (by rw [h])
    else .isFalse (fun hc => h (Except.error.inj hc))
  | .ok _, .error _ => .isFalse (fun hc => Except.noConfusion hc)
  | .error _, .ok _ => .isFalse (fun hc => Except.noConfusion hc)

/-! ### Concrete instances used by counterexamples and witnesses -/

/-- Two antiparallel edges, flow on both directions. -/
def Gc1 : Graph := ⟨[1, 2], [(1, 2, 10), (2, 1, 10)]⟩

def flc1 : List ((Nat × Nat) × Int) := [((1, 2), 3), ((2, 1), 2)]

/-- A graph with a negative edge capacity. -/
def Gc6 : Graph := ⟨[0, 1], [(0, 1, -5)]⟩

/-- A single-edge graph used for the heap-mutation claim. -/
def Gc7 : Graph := ⟨[0, 1], [(0, 1, 10)]⟩

def flc7 : List ((Nat × Nat) × Int) := [((0, 1), 4)]

/-- The residual graph `residual_graph` actually returns on `Gc7`/`flc7`. -/
def Hc7 : Graph := ⟨[0, 1], [(0, 1, 6), (1, 0, 4)]⟩

/-! ### C1 — capacities of the residual graph -/

/-- C1, counterexample.  The claim states that for every flow with
`0 ≤ f ≤ capacity` the returned capacity of a flow edge `(u, v)` equals
`capacity(u, v) - f(u, v)`.  On two antiparallel flow entries the reverse
merge of the `(2, 1)` entry also lands on `(1, 2)`: the code returns
`10 - 3 + 2 = 9`, not `10 - 3 = 7`. -/
theorem c1_residual_capacity_counterexample :
    (0 ≤ (3 : Int) ∧ 3 ≤ 10 ∧ 0 ≤ (2 : Int) ∧ 2 ≤ 10 ∧
      capAt Gc1 1 2 = some 10 ∧ capAt Gc1 2 1 = some 10) ∧
    residual_graph Gc1 flc1 = .ok ⟨[1, 2], [(1, 2, 9), (2, 1, 11)]⟩ ∧
    capAt (⟨[1, 2], [(1, 2, 9), (2, 1, 11)]⟩ : Graph) 1 2 = some 9 ∧
    (9 : Int) ≠ 10 - 3 := by
  decide

/-- C1, amended.  For a flow dict over edges of `G` with
`0 ≤ f(u, v) ≤ capacity(u, v)`, `residual_graph` succeeds, and for every
flow edge `(u, v)` the returned capacity of `(u, v)` is
`capacity(u, v) - f(u, v) + f(v, u)` and the capacity of the reverse edge
`(v, u)` (created from 0 when absent from `G`) is
`capacity(v, u) + f(u, v) - f(v, u)`, a missing flow entry counting as 0.
When the flow contains no antiparallel pair this reduces to the claim as
stated. -/
theorem c1_residual_capacities_amended (G : Graph)
    (flow : List ((Nat × Nat) × Int)) (hnd : (flow.map Prod.fst).Nodup)
    (hok : ∀ e ∈ flow, ∃ c, capAt G e.1.1 e.1.2 = some c ∧ 0 ≤ e.2 ∧ e.2 ≤ c) :
    ∃ H, residual_graph G flow = .ok H ∧
      ∀ u v f, ((u, v), f) ∈ flow →
        capAt H u v = some (capD G u v - f + flowGet flow (v, u)) ∧
        capAt H v u = some (capD G v u + f - flowGet flow (v, u)) := by
  have hok' : ∀ e ∈ flow, ∃ c, capAt G e.1.1 e.1.2 = some c ∧ e.2 ≤ c :=
    fun e he => (hok e he).imp (fun c hc => ⟨hc.1, hc.2.2⟩)
  obtain ⟨H, hH, hcaps⟩ := residual_graph_spec G flow hnd hok'
  refine ⟨H, hH, ?_⟩
  intro u v f hmem
  have hf : lk flow (u, v) = some f := lk_of_mem_of_nodup hnd hmem
  have hfg : flowGet flow (u, v) = f := by simp [flowGet, hf]
  obtain ⟨c, hc, _⟩ := hok ((u, v), f) hmem
  simp only at hc
  constructor
  · rw [hcaps u v, if_pos (Or.inl (by simp [hc])), hfg]
  · rw [hcaps v u, if_pos (Or.inr (by simp [hf])), hfg]
    congr 1
    ring

/-- C1, witness for the amended theorem at the antiparallel instance. -/
theorem c1_residual_capacities_witness :
    ∃ H, residual_graph Gc1 flc1 = .ok H ∧
      ∀ u v f, ((u, v), f) ∈ flc1 →
        capAt H u v = some (capD Gc1 u v - f + flowGet flc1 (v, u)) ∧
        capAt H v u = some (capD Gc1 v u + f - flowGet flc1 (v, u)) :=
  c1_residual_capacities_amended Gc1 flc1 (by decide) (by decide)

/-! ### C9 — antiparallel capacity conservation -/

/-- C9, confirmed.  For every flow `residual_graph` accepts (each entry on
an edge of `G`, not exceeding its capacity), and every flow edge `(u, v)`,
the capacities of `(u, v)` and `(v, u)` in the result sum to the sum of the
original capacities, an absent edge counting as 0. -/
theorem c9_antiparallel_capacity_sum (G : Graph)
    (flow : List ((Nat × Nat) × Int)) (hnd : (flow.map Prod.fst).Nodup)
    (hok : ∀ e ∈ flow, ∃ c, capAt G e.1.1 e.1.2 = some c ∧ e.2 ≤ c) :
    ∃ H, residual_graph G flow = .ok H ∧
      ∀ u v f, ((u, v), f) ∈ flow →
        capD H u v + capD H v u = capD G u v + capD G v u := by
  obtain ⟨H, hH, hcaps⟩ := residual_graph_spec G flow hnd hok
  refine ⟨H, hH, ?_⟩
  intro u v f hmem
  have hf : lk flow (u, v) = some f := lk_of_mem_of_nodup hnd hmem
  obtain ⟨c, hc, _⟩ := hok ((u, v), f) hmem
  simp only at hc
  have huv : capAt H u v =
      some (capD G u v - flowGet flow (u, v) + flowGet flow (v, u)) := by
    rw [hcaps u v, if_pos (Or.inl (by simp [hc]))]
  have hvu : capAt H v u =
      some (capD G v u - flowGet flow (v, u) + flowGet flow (u, v)) := by
    rw [hcaps v u, if_pos (Or.inr (by simp [hf]))]
  have huvD : capD H u v =
      capD G u v - flowGet flow (u, v) + flowGet flow (v, u) := by
    unfold capD
    rw [huv]
    rfl
  have hvuD : capD H v u =
      capD G v u - flowGet flow (v, u) + flowGet flow (u, v) := by
    unfold capD
    rw [hvu]
    rfl
  rw [huvD, hvuD]
  ring

/-- C9, witness at the antiparallel instance. -/
theorem c9_antiparallel_capacity_sum_witness :
    ∃ H, residual_graph Gc1 flc1 = .ok H ∧
      ∀ u v f, ((u, v), f) ∈ flc1 →
        capD H u v + capD H v u = capD Gc1 u v + capD Gc1 v u :=
  c9_antiparallel_capacity_sum Gc1 flc1 (by decide) (by decide)

/-! ### C6 — negative capacities are not rejected -/

/-- C6, counterexample.  `Gc6` carries the negative capacity `-5` on edge
`(0, 1)`, yet `residual_graph` returns a graph without error and
`level_bfs` runs to completion, returning a level map; no `InvalidCapacity`
failure happens before (or during) traversal. -/
theorem c6_invalid_capacity_counterexample :
    capAt Gc6 0 1 = some (-5) ∧ (-5 : Int) < 0 ∧
    residual_graph Gc6 [] = .ok Gc6 ∧
    level_bfs Gc6 [] 0 1 = .ok ([], [(0, 0)]) := by
  decide

/-- C6, amended.  The code contains no capacity-sign check at all:
`residual_graph` succeeds exactly when every flow entry lies on an edge of
`G` and does not exceed that edge's capacity, regardless of the capacities'
signs; `level_bfs` (see the counterexample) merely skips non-positive
edges. -/
theorem c6_no_invalid_capacity_check (G : Graph)
    (flow : List ((Nat × Nat) × Int)) :
    (∃ H, residual_graph G flow = .ok H) ↔
      ∀ e ∈ flow, ∃ c, capAt G e.1.1 e.1.2 = some c ∧ e.2 ≤ c :=
  residual_foldlM_ok_iff G flow G (fun _ _ h => h)

/-! ### C7 — residual updates land on a copy, not the passed-in graph -/

/-- C7, counterexample.  Applying the residual bookkeeping through the
object store leaves the graph object at the input reference unchanged
(capacity still `10`), returning a fresh reference (`1 ≠ 0`) holding the
updated copy; the claim that the passed-in object's capacities change in
place fails. -/
theorem c7_mutation_counterexample :
    residual_graph_heap [Gc7] 0 flc7 = .ok ([Gc7, Hc7], 1) ∧
    [Gc7, Hc7].get? 0 = some Gc7 ∧
    capAt Gc7 0 1 = some 10 ∧ ((10 : Int) ≠ 10 - 4) ∧ (1 : Nat) ≠ 0 := by
  decide

/-- C7, amended.  `residual_graph` starts with `H = G.copy()`: whenever it
succeeds on the graph at reference `r`, the store keeps the original object
at `r` untouched and the result is a fresh reference to the updated copy;
the shared residual state is updated by rebinding the caller's name (the
notebook does `R = residual_graph(R, aug_flow)`), not by in-place
mutation. -/
theorem c7_residual_copies_input (store : List Graph) (r : Nat) (G H : Graph)
    (flow : List ((Nat × Nat) × Int)) (hr : store.get? r = some G)
    (hH : residual_graph G flow = .ok H) :
    residual_graph_heap store r flow = .ok (store ++ [H], store.length) ∧
    (store ++ [H]).get? r = some G ∧ store.length ≠ r := by
  have hlt : r < store.length := List.get?_eq_some.1 hr |>.choose
  refine ⟨?_, ?_, ?_⟩
  · unfold residual_graph_heap
    rw [hr]
    show (match residual_graph G flow with
      | .error m => (.error m : Except String (List Graph × Nat))
      | .ok H => .ok (store ++ [H], store.length)) = _
    rw [hH]
  · rw [List.get?_append hlt]
    exact hr
  · exact fun h => absurd (h ▸ hlt) (lt_irrefl _)

/-- C7, witness for the amended theorem. -/
theorem c7_residual_copies_input_witness :
    residual_graph_heap [Gc7] 0 flc7 = .ok ([Gc7] ++ [Hc7], [Gc7].length) ∧
    ([Gc7] ++ [Hc7]).get? 0 = some Gc7 ∧ [Gc7].length ≠ 0 :=
  c7_residual_copies_input [Gc7] 0 Gc7 Hc7 flc7 (by rfl) (by decide)

/-! ### C4 / C10 — the augmenting-path walk -/

/-- `xs` is the walk obtained by following `parents` from its head until
the source: every node before the end differs from the source and maps to
its successor in the walk, and the walk ends at the source. -/
def chainToSource (parents : List (Nat × Nat)) (s : Nat) : List Nat → Bool
  | [] => false
  | [x] => decide (x = s)
  | x :: y :: r =>
    (!decide (x = s)) && decide (lk parents x = some y) &&
      chainToSource parents s (y :: r)

/-- Every step `x → y` of the walk corresponds to an edge `(y, x)` present
in `R` (the lookup `R.pred[x][y]` succeeds). -/
def chainEdgesIn (R : Graph) : List Nat → Bool
  | x :: y :: r => (capAt R y x).isSome && chainEdgesIn R (y :: r)
  | _ => true

/-- The quantity `aug_path_dfs` actually returns as `f`: starting from the
seed, fold `min f (R.pred[u][v]["capacity"] - flow.get((u, v), 0))` along
the walk. -/
def augBottleneck (R : Graph) (flow : List ((Nat × Nat) × Int)) :
    Int → List Nat → Int
  | f, x :: y :: r =>
    augBottleneck R flow (min f (capD R y x - flowGet flow (x, y))) (y :: r)
  | f, _ => f

/-- The `while` loop of `aug_path_dfs` on a parents walk that reaches the
source along edges present in `R`: it terminates and returns the walk
appended to the accumulated path, with the folded `f`. -/
theorem augLoop_spec (R : Graph) (parents : List (Nat × Nat))
    (flow : List ((Nat × Nat) × Int)) (s : Nat) :
    ∀ (rest : List Nat) (u : Nat) (pre : List Nat) (f : Int) (fuel : Nat),
      chainToSource parents s (u :: rest) = true →
      chainEdgesIn R (u :: rest) = true →
      rest.length < fuel →
      augLoop R parents flow s fuel u pre f =
        .ok (pre ++ u :: rest, augBottleneck R flow f (u :: rest)) := by
  intro rest
  induction rest with
  | nil =>
    intro u pre f fuel hc he hf
    have hu : u = s := by simpa [chainToSource] using hc
    subst hu
    obtain ⟨k, rfl⟩ : ∃ k, fuel = k + 1 := ⟨fuel - 1, by omega⟩
    simp [augLoop, augBottleneck]
  | cons y r ih =>
    intro u pre f fuel hc he hf
    have hc' : (¬ u = s ∧ lk parents u = some y) ∧
        chainToSource parents s (y :: r) = true := by
      simpa [chainToSource, Bool.and_eq_true, decide_eq_true_eq] using hc
    have he' : (capAt R y u).isSome ∧ chainEdgesIn R (y :: r) = true := by
      simpa [chainEdgesIn, Bool.and_eq_true] using he
    rcases hcap : capAt R y u with _ | c
    · rw [hcap] at he'
      exact absurd he'.1 (by simp)
    obtain ⟨k, rfl⟩ : ∃ k, fuel = k + 1 := ⟨fuel - 1, by omega⟩
    have hstep : augLoop R parents flow s (k + 1) u pre f =
        augLoop R parents flow s k y (pre ++ [u])
          (min f (c - flowGet flow (u, y))) := by
      simp only [augLoop, if_neg hc'.1.1, hc'.1.2, hcap]
    rw [hstep, ih y (pre ++ [u]) (min f (c - flowGet flow (u, y))) k hc'.2 he'.2
      (by simpa using Nat.lt_of_succ_lt_succ hf)]
    have hcapD : capD R y u = c := by
      simp [capD, hcap]
    simp [augBottleneck, hcapD]

/-- The single-edge residual graph used for the `aug_path_dfs` claims. -/
def Rc4 : Graph := ⟨[0, 1], [(0, 1, 10)]⟩

/-- C4, counterexample.  On the residual graph with one edge `(0, 1)` of
capacity 10, a parents chain `1 ← 0` and flow dict `{(1, 0): 2}`,
`aug_path_dfs` returns the bottleneck `6 = min(3 * max(flow), 10 - 2)`,
not the minimum residual capacity `10` along the path. -/
theorem c4_bottleneck_counterexample :
    chainToSource [(1, 0)] 0 [1, 0] = true ∧
    aug_path_dfs Rc4 [(1, 0)] [((1, 0), 2)] 0 1 5 = .ok ([1, 0], 6) ∧
    capAt Rc4 0 1 = some 10 ∧ ((6 : Int) ≠ 10) := by
  decide

/-- C4, amended.  On a parents walk from the target that reaches the source
along edges of `R`, `aug_path_dfs` returns the walk (target back to source)
together with `f = min(3 * max(flow.values()), min over walk steps u → v of
(capacity of (v, u) in R) - flow.get((u, v), 0))`, not the plain minimum
residual capacity. -/
theorem c4_aug_path_amended (R : Graph) (parents : List (Nat × Nat))
    (e0 : (Nat × Nat) × Int) (fl : List ((Nat × Nat) × Int)) (s t : Nat)
    (chain : List Nat) (fuel : Nat)
    (hchain : chainToSource parents s (t :: chain) = true)
    (hedges : chainEdgesIn R (t :: chain) = true)
    (hfuel : chain.length < fuel) :
    aug_path_dfs R parents (e0 :: fl) s t fuel =
      .ok (t :: chain,
        augBottleneck R (e0 :: fl)
          (3 * List.foldl max e0.2 (fl.map Prod.snd)) (t :: chain)) := by
  unfold aug_path_dfs
  simp only [List.map_cons]
  rw [augLoop_spec R parents (e0 :: fl) s chain t []
    (3 * List.foldl max e0.2 (fl.map Prod.snd)) fuel hchain hedges hfuel]
  simp

/-- C4, witness for the amended theorem at the counterexample instance. -/
theorem c4_aug_path_amended_witness :
    aug_path_dfs Rc4 [(1, 0)] [((1, 0), 2)] 0 1 5 =
      .ok ((1 : Nat) :: [0],
        augBottleneck Rc4 [((1, 0), 2)]
          (3 * List.foldl max (((1, 0), (2 : Int)) : (Nat × Nat) × Int).2
            (([] : List ((Nat × Nat) × Int)).map Prod.snd)) ((1 : Nat) :: [0])) :=
  c4_aug_path_amended Rc4 [(1, 0)] ((1, 0), 2) [] 0 1 [0] 5
    (by decide) (by decide) (by decide)

/-- C10, counterexample.  The claim's preconditions hold — the flow dict is
non-empty and following parents from the target reaches the source — yet
the residual-capacity lookup fails (`R.pred[1][0]` raises `KeyError`)
because the edge `(0, 1)` is absent from `R`: the stated preconditions are
not sufficient for totality. -/
theorem c10_totality_counterexample :
    ([((5, 5), 1)] : List ((Nat × Nat) × Int)) ≠ [] ∧
    chainToSource [(1, 0)] 0 [1, 0] = true ∧
    aug_path_dfs (⟨[0, 1], []⟩ : Graph) [(1, 0)] [((5, 5), 1)] 0 1 9 =
      .error "KeyError: R.pred" := by
  decide

/-- C10, amended.  `aug_path_dfs` is total exactly under: (i) the flow dict
is non-empty (the `max(flow.values())` seed raises `ValueError` on an empty
dict, so the all-zero initial flow represented as an empty mapping makes
the error reachable), (ii) following parents from the target reaches the
source, and (iii) every step of that walk crosses an edge present in `R`
(the lookup `R.pred[u][v]` would otherwise raise `KeyError`); the loop then
performs one iteration per walk step and returns without error. -/
theorem c10_aug_path_totality (R : Graph) (parents : List (Nat × Nat))
    (flow : List ((Nat × Nat) × Int)) (s t : Nat) (chain : List Nat)
    (fuel : Nat)
    (hchain : chainToSource parents s (t :: chain) = true)
    (hedges : chainEdgesIn R (t :: chain) = true)
    (hflow : flow ≠ []) (hfuel : chain.length < fuel) :
    (∀ fuel' : Nat, aug_path_dfs R parents [] s t fuel' =
        .error "ValueError: max() arg is an empty sequence") ∧
    ∃ p b, aug_path_dfs R parents flow s t fuel = .ok (p, b) := by
  constructor
  · intro fuel'
    rfl
  · obtain ⟨e0, fl, rfl⟩ : ∃ e0 fl, flow = e0 :: fl := by
      rcases flow with _ | ⟨e0, fl⟩
      · exact absurd rfl hflow
      · exact ⟨e0, fl, rfl⟩
    refine ⟨t :: chain,
      augBottleneck R (e0 :: fl)
        (3 * List.foldl max e0.2 (fl.map Prod.snd)) (t :: chain), ?_⟩
    unfold aug_path_dfs
    simp only [List.map_cons]
    rw [augLoop_spec R parents (e0 :: fl) s chain t []
      (3 * List.foldl max e0.2 (fl.map Prod.snd)) fuel hchain hedges hfuel]
    simp

/-- C10, witness for the amended totality theorem. -/
theorem c10_aug_path_totality_witness :
    (∀ fuel' : Nat, aug_path_dfs Rc4 [(1, 0)] [] 0 1 fuel' =
        .error "ValueError: max() arg is an empty sequence") ∧
    ∃ p b, aug_path_dfs Rc4 [(1, 0)] [((1, 0), 2)] 0 1 5 = .ok (p, b) :=
  c10_aug_path_totality Rc4 [(1, 0)] [((1, 0), 2)] 0 1 [0] 5
    (by decide) (by decide) (by decide) (by decide)

/-! ### C5 / C8 — `check_valid_flow` and the absence of entry validation -/

/-- Value of one `check_valid_flow` iteration when the flow edge is present
in `G`. -/
theorem cvf_step_eq (G : Graph) (flow : List ((Nat × Nat) × Int))
    (s t : Nat) (r0 : FlowReport) (u v : Nat) (f c : Int)
    (hc : capAt G u v = some c) :
    cvf_step G flow s t r0 ((u, v), f) = .ok
      ⟨r0.capViol ++ (if f > c then [(u, v)] else []),
       r0.consViol ++ (if v ≠ s ∧ v ≠ t ∧
          ¬ isclose (inflowAt G flow v) (outflowAt G flow v)
        then [v] else [])⟩ := by
  have hr1 : (if f > c then (⟨r0.capViol ++ [(u, v)], r0.consViol⟩ : FlowReport)
      else r0) =
      ⟨r0.capViol ++ (if f > c then [(u, v)] else []), r0.consViol⟩ := by
    by_cases h1 : f > c <;> simp [h1]
  unfold cvf_step
  simp only [hc, hr1]
  by_cases h2 : v ≠ s ∧ v ≠ t
  · by_cases h3 : isclose (inflowAt G flow v) (outflowAt G flow v)
    · have hni : ¬ ¬ isclose (inflowAt G flow v) (outflowAt G flow v) = true :=
        fun hcon => hcon h3
      have hcond : ¬ (v ≠ s ∧ v ≠ t ∧
          ¬ isclose (inflowAt G flow v) (outflowAt G flow v) = true) :=
        fun hcon => hcon.2.2 h3
      rw [if_pos h2, if_neg hni, if_neg hcond]
      simp
    · have hcond : v ≠ s ∧ v ≠ t ∧
          ¬ isclose (inflowAt G flow v) (outflowAt G flow v) = true :=
        ⟨h2.1, h2.2, h3⟩
      rw [if_pos h2, if_pos hcond.2.2, if_pos hcond]
  · have hcond : ¬ (v ≠ s ∧ v ≠ t ∧
        ¬ isclose (inflowAt G flow v) (outflowAt G flow v) = true) :=
      fun hcon => h2 ⟨hcon.1, hcon.2.1⟩
    rw [if_neg h2, if_neg hcond]
    simp

/-- Membership characterisation of the violation lists accumulated by
`check_valid_flow`'s loop, together with the fact that a successful run
means every flow edge is present in `G`. -/
theorem cvf_fold_mem (G : Graph) (flow : List ((Nat × Nat) × Int))
    (s t : Nat) :
    ∀ (rest : List ((Nat × Nat) × Int)) (r0 r : FlowReport),
      List.foldlM (cvf_step G flow s t) r0 rest = .ok r →
      (∀ e ∈ rest, (capAt G e.1.1 e.1.2).isSome) ∧
      (∀ k : Nat × Nat, k ∈ r.capViol ↔ k ∈ r0.capViol ∨
        ∃ f c, (k, f) ∈ rest ∧ capAt G k.1 k.2 = some c ∧ f > c) ∧
      (∀ v : Nat, v ∈ r.consViol ↔ v ∈ r0.consViol ∨
        ((∃ u f, ((u, v), f) ∈ rest) ∧ v ≠ s ∧ v ≠ t ∧
          ¬ isclose (inflowAt G flow v) (outflowAt G flow v))) := by
  intro rest
  induction rest with
  | nil =>
    intro r0 r hr
    obtain rfl : r0 = r := Except.ok.inj hr
    refine ⟨fun e he => absurd he (List.not_mem_nil e), ?_, ?_⟩
    · intro k
      simp
    · intro v
      simp
  | cons e rest' ih =>
    intro r0 r hr
    obtain ⟨⟨u, v⟩, f⟩ := e
    rcases hc : capAt G u v with _ | c
    · rw [List.foldlM_cons] at hr
      have hstep : cvf_step G flow s t r0 ((u, v), f) = .error "KeyError" := by
        unfold cvf_step
        simp only [hc]
      rw [hstep, error_bind] at hr
      exact Except.noConfusion hr
    · rw [List.foldlM_cons, cvf_step_eq G flow s t r0 u v f c hc, ok_bind] at hr
      obtain ⟨hpres', hcap', hcons'⟩ := ih _ r hr
      refine ⟨?_, ?_, ?_⟩
      · intro e he
        rcases List.mem_cons.1 he with rfl | he'
        · simp [hc]
        · exact hpres' e he'
      · intro k
        rw [hcap' k]
        constructor
        · rintro (hk | ⟨f', c', hmem, hc', hfc'⟩)
          · rcases List.mem_append.1 hk with hk0 | hk1
            · exact Or.inl hk0
            · by_cases h1 : f > c
              · rw [if_pos h1] at hk1
                have hkuv : k = (u, v) := List.mem_singleton.1 hk1
                right
                refine ⟨f, c, ?_, ?_, h1⟩
                · rw [hkuv]
                  exact List.mem_cons_self _ _
                · rw [hkuv]
                  exact hc
              · rw [if_neg h1] at hk1
                exact absurd hk1 (List.not_mem_nil k)
          · exact Or.inr ⟨f', c', List.mem_cons_of_mem _ hmem, hc', hfc'⟩
        · rintro (hk | ⟨f', c', hmem, hc', hfc'⟩)
          · exact Or.inl (List.mem_append.2 (Or.inl hk))
          · rcases List.mem_cons.1 hmem with heq | hmem'
            · have hk : k = (u, v) := congrArg Prod.fst heq
              have hf : f' = f := congrArg Prod.snd heq
              subst hf
              left
              apply List.mem_append.2
              right
              have hcc : c' = c := by
                rw [hk] at hc'
                exact Option.some.inj (hc'.symm.trans hc)
              subst hcc
              simp [hfc', hk]
            · exact Or.inr ⟨f', c', hmem', hc', hfc'⟩
      · intro w
        rw [hcons' w]
        constructor
        · rintro (hw | ⟨⟨u', f', hmem⟩, hws, hwt, hwc⟩)
          · rcases List.mem_append.1 hw with hw0 | hw1
            · exact Or.inl hw0
            · by_cases h2 : v ≠ s ∧ v ≠ t ∧
                  ¬ isclose (inflowAt G flow v) (outflowAt G flow v)
              · rw [if_pos h2] at hw1
                have hwv : w = v := List.mem_singleton.1 hw1
                subst hwv
                exact Or.inr ⟨⟨u, f, List.mem_cons_self _ _⟩, h2.1, h2.2.1, h2.2.2⟩
              · rw [if_neg h2] at hw1
                exact absurd hw1 (List.not_mem_nil w)
          · exact Or.inr ⟨⟨u', f', List.mem_cons_of_mem _ hmem⟩, hws, hwt, hwc⟩
        · rintro (hw | ⟨⟨u', f', hmem⟩, hws, hwt, hwc⟩)
          · exact Or.inl (List.mem_append.2 (Or.inl hw))
          · rcases List.mem_cons.1 hmem with heq | hmem'
            · have hwv : w = v := by
                have := congrArg (fun p => p.1.2) heq
                simpa using this
              subst hwv
              left
              apply List.mem_append.2
              right
              simp [hws, hwt, hwc]
            · exact Or.inr ⟨⟨u', f', hmem'⟩, hws, hwt, hwc⟩

/-- The three-edge path graph used by the `check_valid_flow` claims. -/
def Gc5 : Graph := ⟨[0, 1, 2], [(0, 1, 10), (1, 2, 10)]⟩

/-- C5, counterexample.  With source 0 and target 2 on the path
`0 → 1 → 2`: (i) the flow `{(1, 2): 5}` violates conservation at node 1
(incoming 0, outgoing 5) yet nothing is reported, because only heads of
flow edges are checked; (ii) the flow `{(0, 1): -3}` violates `0 ≤ f` yet
no capacity violation is reported, because only `f > capacity` is
tested. -/
theorem c5_check_valid_flow_counterexample :
    check_valid_flow Gc5 [((1, 2), 5)] 0 2 = .ok ⟨[], []⟩ ∧
    (1 : Nat) ≠ 0 ∧ (1 : Nat) ≠ 2 ∧
    inflowAt Gc5 [((1, 2), 5)] 1 = 0 ∧ outflowAt Gc5 [((1, 2), 5)] 1 = 5 ∧
    (0 : Int) ≠ 5 ∧
    check_valid_flow Gc5 [((0, 1), -3)] 0 2 = .ok ⟨[], [1]⟩ ∧
    (-3 : Int) < 0 := by
  decide

/-- C5, amended.  When `check_valid_flow` returns, it has reported a
capacity violation for `(u, v)` iff some flow entry on `(u, v)` exceeds
the capacity of `(u, v)` in `G` (negative flows are never flagged), and a
conservation violation at `v` iff `v` is the head of at least one flow
edge, differs from source and target, and its incoming and outgoing flow
are not `math.isclose`; nodes that head no flow edge are never checked. -/
theorem c5_check_valid_flow_amended (G : Graph)
    (flow : List ((Nat × Nat) × Int)) (s t : Nat) (r : FlowReport)
    (hok : check_valid_flow G flow s t = .ok r) :
    (∀ k : Nat × Nat, k ∈ r.capViol ↔
      ∃ f c, (k, f) ∈ flow ∧ capAt G k.1 k.2 = some c ∧ f > c) ∧
    (∀ v : Nat, v ∈ r.consViol ↔
      (∃ u f, ((u, v), f) ∈ flow) ∧ v ≠ s ∧ v ≠ t ∧
        ¬ isclose (inflowAt G flow v) (outflowAt G flow v)) := by
  obtain ⟨_, hcap, hcons⟩ := cvf_fold_mem G flow s t flow ⟨[], []⟩ r hok
  constructor
  · intro k
    rw [hcap k]
    simp
  · intro v
    rw [hcons v]
    simp

/-- C5, witness for the amended characterisation. -/
theorem c5_check_valid_flow_witness :
    (∀ k : Nat × Nat, k ∈ FlowReport.capViol ⟨[], []⟩ ↔
      ∃ f c, (k, f) ∈ [((1, 2), (5 : Int))] ∧ capAt Gc5 k.1 k.2 = some c ∧ f > c) ∧
    (∀ v : Nat, v ∈ FlowReport.consViol ⟨[], []⟩ ↔
      (∃ u f, ((u, v), f) ∈ [((1, 2), (5 : Int))]) ∧ v ≠ 0 ∧ v ≠ 2 ∧
        ¬ isclose (inflowAt Gc5 [((1, 2), 5)] v) (outflowAt Gc5 [((1, 2), 5)] v)) :=
  c5_check_valid_flow_amended Gc5 [((1, 2), 5)] 0 2 ⟨[], []⟩ (by decide)

/-- C8, counterexample.  The target node 7 is absent from the graph, yet
`level_bfs` silently accepts the input and returns its maps without any
`UnknownNode` (or other) error. -/
theorem c8_unknown_node_counterexample :
    (7 : Nat) ∉ Rc4.nodes ∧
    level_bfs Rc4 [] 0 7 = .ok ([(1, 0)], [(0, 0), (1, 1)]) := by
  decide

/-- C8, amended.  There is no eager entry check and no `UnknownNode` error
kind: `level_bfs` fails lazily, with the graph library's error, on its
first `R.successors(u)` call when the source is not a node of `R` (while
an absent target is silently accepted, see the counterexample), and
`check_valid_flow` only runs to completion when every flow edge is in `G`,
failing lazily with a `KeyError` at the first lookup of a missing edge. -/
theorem c8_no_eager_node_validation (R G : Graph)
    (flow flow' : List ((Nat × Nat) × Int)) (s t s' t' : Nat)
    (r : FlowReport) (hs : s ∉ R.nodes)
    (hok : check_valid_flow G flow' s' t' = .ok r) :
    level_bfs R flow s t = .error "NetworkXError: the node is not in the digraph" ∧
    ∀ e ∈ flow', (capAt G e.1.1 e.1.2).isSome := by
  constructor
  · unfold level_bfs
    have hloop : bfsLoop R t (R.nodes.length + 2)
        ⟨[], [(s, 0)], [s]⟩ =
        .error "NetworkXError: the node is not in the digraph" := by
      show bfsLoop R t (R.nodes.length + 1 + 1) ⟨[], [(s, 0)], [s]⟩ = _
      simp [bfsLoop, lk, hs]
    rw [hloop]
  · exact (cvf_fold_mem G flow' s' t' flow' ⟨[], []⟩ r hok).1

/-- C8, witness: absent source 9 on the single-edge graph, and a
`check_valid_flow` run whose flow edges are all present. -/
theorem c8_no_eager_node_validation_witness :
    level_bfs Rc4 [] 9 1 =
      .error "NetworkXError: the node is not in the digraph" ∧
    ∀ e ∈ [((1, 2), (5 : Int))], (capAt Gc5 e.1.1 e.1.2).isSome :=
  c8_no_eager_node_validation Rc4 Gc5 [] [((1, 2), 5)] 9 1 0 2 ⟨[], []⟩
    (by decide) (by decide)

/-! ### C2 / C3 — the level BFS -/

theorem posReachLen_zero {R : Graph} {s v : Nat} :
    posReachLen R s 0 v ↔ v = s := Iff.rfl

theorem minReach_self_zero {R : Graph} {s d : Nat}
    (h : minReach R s s d) : d = 0 := by
  by_contra hd
  exact h.2 0 (Nat.pos_of_ne_zero hd) rfl

theorem minReach_unique {R : Graph} {s v d d' : Nat}
    (h : minReach R s v d) (h' : minReach R s v d') : d = d' := by
  rcases Nat.lt_trichotomy d d' with hlt | heq | hgt
  · exact absurd h.1 (h'.2 d hlt)
  · exact heq
  · exact absurd h'.1 (h.2 d' hgt)

theorem reach_exists_min {R : Graph} {s v : Nat} :
    ∀ k, posReachLen R s k v → ∃ j, j ≤ k ∧ minReach R s v j := by
  intro k
  induction k using Nat.strong_induction_on with
  | _ k ih =>
    intro hreach
    by_cases hmin : ∀ j, j < k → ¬ posReachLen R s j v
    · exact ⟨k, le_refl k, hreach, hmin⟩
    · push_neg at hmin
      obtain ⟨j, hj, hreachj⟩ := hmin
      obtain ⟨j', hj', hminj'⟩ := ih j hj hreachj
      exact ⟨j', le_trans hj' (le_of_lt hj), hminj'⟩

theorem minReach_succ_decomp {R : Graph} {s v d : Nat}
    (h : minReach R s v (d + 1)) : ∃ w, minReach R s w d ∧ posStep R w v := by
  obtain ⟨w, hw, hstep⟩ := h.1
  obtain ⟨j, hj, hminj⟩ := reach_exists_min d hw
  have hd : j = d := by
    rcases Nat.lt_or_ge j d with hlt | hge
    · exfalso
      exact h.2 (j + 1) (by omega) ⟨w, hminj.1, hstep⟩
    · omega
  subst hd
  exact ⟨w, hminj, hstep⟩

theorem lk_append_single_ne {κ β : Type} [DecidableEq κ]
    (l : List (κ × β)) {w v : κ} (x : β) (h : ¬ v = w) :
    lk (l ++ [(v, x)]) w = lk l w := by
  rcases hlk : lk l w with _ | b
  · rw [lk_append_of_none _ hlk]
    simp [lk, h]
  · exact lk_append_of_some _ hlk

theorem lk_append_single_isSome {κ β : Type} [DecidableEq κ]
    {l : List (κ × β)} {w : κ} (v : κ) (x : β)
    (h : (lk l w).isSome) : (lk (l ++ [(v, x)]) w).isSome := by
  rcases hlk : lk l w with _ | b
  · rw [hlk] at h
    exact absurd h (by simp)
  · rw [lk_append_of_some _ hlk]
    rfl

theorem lk_upd_isSome {κ β : Type} [DecidableEq κ]
    {l : List (κ × β)} {w : κ} (k : κ) (x : β)
    (h : (lk l w).isSome) : (lk (upd l k x) w).isSome := by
  by_cases hwk : w = k
  · subst hwk
    rw [lk_upd_self]
    rfl
  · rw [lk_upd_ne _ x hwk]
    exact h

/-- Invariant of `level_bfs`'s loop between iterations.  `L` is the level
of the current BFS layer: the queue holds a block of level-`L` nodes
followed by a block of level-`(L+1)` nodes.  Levels of non-source nodes
are exact shortest positive-residual hop distances; every node at distance
at most `L` has been discovered; every dequeued node has had all its
positive out-edges examined.  The source starts at level 0 but is treated
like an undiscovered node by the `v not in parents` test, so a
positive-residual cycle back to it may re-enter it into `parents` and
overwrite its level. -/
structure BfsInv (R : Graph) (s : Nat) (st : BfsState) (L : Nat) : Prop where
  qsplit : ∃ qa qb, st.queue = qa ++ qb ∧
    (∀ v ∈ qa, lk st.level v = some L) ∧
    (∀ v ∈ qb, lk st.level v = some (L + 1))
  lvCorrect : ∀ v d, v ≠ s → lk st.level v = some d → minReach R s v d
  complete : ∀ v d, minReach R s v d → d ≤ L → (lk st.level v).isSome
  expanded : ∀ u, (lk st.level u).isSome → u ∉ st.queue →
    ∀ v, posStep R u v → (lk st.level v).isSome
  srcDone : (st.queue = [s] ∧ st.parents = [] ∧ st.level = [(s, 0)] ∧ L = 0) ∨
    (∀ v, posStep R s v → (lk st.level v).isSome)
  lvIffDisc : ∀ v, (lk st.level v).isSome ↔
    (v = s ∨ (lk st.parents v).isSome)
  parentsPos : ∀ v u, lk st.parents v = some u → posStep R u v
  lvBound : ∀ v d, lk st.level v = some d → d ≤ L + 1
  srcZero : lk st.parents s = none → lk st.level s = some 0
  srcQueue : s ∈ st.queue → (lk st.parents s).isSome ∨
    (st.queue = [s] ∧ st.parents = [])

/-- Invariant in the middle of the `for v in R.successors(u)` loop while
processing the dequeued node `u` of level `L`; `rem` is the list of
successors not yet visited. -/
structure FoldInv (R : Graph) (s : Nat) (u : Nat) (L : Nat) (rem : List Nat)
    (st : BfsState) : Prop where
  qsplit : ∃ qa qb, st.queue = qa ++ qb ∧
    (∀ v ∈ qa, lk st.level v = some L) ∧
    (∀ v ∈ qb, lk st.level v = some (L + 1))
  lvCorrect : ∀ v d, v ≠ s → lk st.level v = some d → minReach R s v d
  complete : ∀ v d, minReach R s v d → d ≤ L → (lk st.level v).isSome
  expandedMid : ∀ w, (lk st.level w).isSome → w ∉ st.queue → w ≠ u →
    ∀ v, posStep R w v → (lk st.level v).isSome
  umid : ∀ v, posStep R u v → v ∈ rem ∨ (lk st.level v).isSome
  uLevel : lk st.level u = some L
  uDisc : u = s ∨ (lk st.parents u).isSome
  srcSide : (∀ v, posStep R s v → (lk st.level v).isSome) ∨
    (u = s ∧ lk st.parents s = none ∧ lk st.level s = some 0 ∧ L = 0)
  lvIffDisc : ∀ v, (lk st.level v).isSome ↔
    (v = s ∨ (lk st.parents v).isSome)
  parentsPos : ∀ v u', lk st.parents v = some u' → posStep R u' v
  lvBound : ∀ v d, lk st.level v = some d → d ≤ L + 1
  srcZero : lk st.parents s = none → lk st.level s = some 0
  srcQueueMid : s ∈ st.queue → (lk st.parents s).isSome

/-- One visit of the successor loop preserves the mid-loop invariant. -/
theorem foldInv_step {R : Graph} {s : Nat} (hs : ¬ posStep R s s)
    {u L : Nat} {v : Nat} {rem : List Nat} {st : BfsState}
    (hv : FoldInv R s u L (v :: rem) st) :
    FoldInv R s u L rem (bfsVisit R u st v) := by
  by_cases hg : (lk st.parents v).isNone ∧ 0 < capD R u v
  swap
  · -- the guard fails: the state is unchanged
    have hst : bfsVisit R u st v = st := by
      unfold bfsVisit
      rw [if_neg hg]
    rw [hst]
    refine ⟨hv.qsplit, hv.lvCorrect, hv.complete, hv.expandedMid, ?_,
      hv.uLevel, hv.uDisc, hv.srcSide, hv.lvIffDisc, hv.parentsPos,
      hv.lvBound, hv.srcZero, hv.srcQueueMid⟩
    intro x hx
    rcases hv.umid x hx with hmem | hlv
    · rcases List.mem_cons.1 hmem with rfl | hmem'
      · -- x = v and the guard failed: v must already be discovered
        right
        have hpar : (lk st.parents x).isSome := by
          by_contra hno
          exact hg ⟨by simpa using (Option.not_isSome_iff_eq_none.1 hno), hx⟩
        exact (hv.lvIffDisc x).2 (Or.inr hpar)
      · exact Or.inl hmem'
    · exact Or.inr hlv
  · -- the guard holds: v is recorded with parent u and level L + 1
    have hnone : lk st.parents v = none := by
      simpa using hg.1
    have hpos : posStep R u v := hg.2
    have hst : bfsVisit R u st v =
        { parents := st.parents ++ [(v, u)],
          level := upd st.level v ((lk st.level u).getD 0 + 1),
          queue := st.queue ++ [v] } := by
      unfold bfsVisit
      rw [if_pos hg]
    have hlevu : (lk st.level u).getD 0 = L := by
      rw [hv.uLevel]
      rfl
    have hvne_u : v ≠ u ∨ (u = s ∧ v = s) := by
      by_cases hvu : v = u
      · subst hvu
        rcases hv.uDisc with rfl | hpar
        · exact Or.inr ⟨rfl, rfl⟩
        · rw [hnone] at hpar
          exact absurd hpar (by simp)
      · exact Or.inl hvu
    have hvs_not_us : ¬ (u = s ∧ v = s) := by
      rintro ⟨rfl, rfl⟩
      exact hs hpos
    have hvu : v ≠ u := by
      rcases hvne_u with h | h
      · exact h
      · exact absurd h hvs_not_us
    have hlev'u : lk (upd st.level v ((lk st.level u).getD 0 + 1)) u =
        some L := by
      rw [lk_upd_ne _ _ (fun h => hvu h.symm), hv.uLevel]
    have hlev'v : lk (upd st.level v ((lk st.level u).getD 0 + 1)) v =
        some (L + 1) := by
      rw [lk_upd_self, hlevu]
    have hpar'v : lk (st.parents ++ [(v, u)]) v = some u := by
      rw [lk_append_of_none _ hnone]
      simp [lk]
    have hpar'_ne : ∀ w, w ≠ v →
        lk (st.parents ++ [(v, u)]) w = lk st.parents w :=
      fun w hw => lk_append_single_ne _ _ (fun h => hw h.symm)
    by_cases hvsx : v = s
    · -- rediscovery of the source through a cycle back into it
      subst hvsx
      have hus : u ≠ v := fun h => hvs_not_us ⟨h, rfl⟩
      have hsq : v ∉ st.queue := by
        intro hmem
        have := hv.srcQueueMid hmem
        rw [hnone] at this
        exact absurd this (by simp)
      have hsrcleft : ∀ x, posStep R v x → (lk st.level x).isSome := by
        rcases hv.srcSide with h | ⟨rfl, _, _, _⟩
        · exact h
        · exact absurd rfl hus
      have hlvs : (lk st.level v).isSome := by
        rw [hv.srcZero hnone]
        rfl
      have hlv_eq : ∀ w, (lk (upd st.level v ((lk st.level u).getD 0 + 1)) w).isSome
          ↔ (lk st.level w).isSome := by
        intro w
        by_cases hwv : w = v
        · subst hwv
          rw [hlev'v]
          simp [hlvs]
        · rw [lk_upd_ne _ _ hwv]
      rw [hst]
      refine ⟨?_, ?_, ?_, ?_, ?_, ?_, ?_, ?_, ?_, ?_, ?_, ?_, ?_⟩
      · -- qsplit
        obtain ⟨qa, qb, hq, ha, hb⟩ := hv.qsplit
        refine ⟨qa, qb ++ [v], by simp [hq], ?_, ?_⟩
        · intro w hw
          have hwne : ¬ w = v := fun h => hsq (h ▸ (hq ▸ List.mem_append.2 (Or.inl hw)))
          rw [lk_upd_ne _ _ hwne]
          exact ha w hw
        · intro w hw
          rcases List.mem_append.1 hw with hw' | hw'
          · have hwne : ¬ w = v := fun h => hsq (h ▸ (hq ▸ List.mem_append.2 (Or.inr hw')))
            rw [lk_upd_ne _ _ hwne]
            exact hb w hw'
          · obtain rfl : w = v := List.mem_singleton.1 hw'
            exact hlev'v
      · -- lvCorrect
        intro w d hws hwd
        have hwne : ¬ w = v := hws
        rw [lk_upd_ne _ _ hwne] at hwd
        exact hv.lvCorrect w d hws hwd
      · -- complete
        intro w d hw hd
        exact (hlv_eq w).2 (hv.complete w d hw hd)
      · -- expandedMid
        intro w hw hwq hwu x hx
        have hw' : (lk st.level w).isSome := (hlv_eq w).1 hw
        have hwq' : w ∉ st.queue := fun h => hwq (List.mem_append.2 (Or.inl h))
        exact (hlv_eq x).2 (hv.expandedMid w hw' hwq' hwu x hx)
      · -- umid
        intro x hx
        rcases hv.umid x hx with hmem | hlv
        · rcases List.mem_cons.1 hmem with rfl | hmem'
          · exact Or.inr (by rw [hlev'v]; rfl)
          · exact Or.inl hmem'
        · exact Or.inr ((hlv_eq x).2 hlv)
      · -- uLevel
        exact hlev'u
      · -- uDisc
        rcases hv.uDisc with h | h
        · exact Or.inl h
        · exact Or.inr (lk_append_single_isSome _ _ h)
      · -- srcSide
        left
        intro x hx
        exact (hlv_eq x).2 (hsrcleft x hx)
      · -- lvIffDisc
        intro w
        by_cases hwv : w = v
        · subst hwv
          rw [hlev'v]
          simp [hpar'v]
        · rw [lk_upd_ne _ _ hwv, hpar'_ne w hwv]
          exact hv.lvIffDisc w
      · -- parentsPos
        intro w u' hw
        by_cases hwv : w = v
        · subst hwv
          rw [hpar'v] at hw
          obtain rfl : u = u' := Option.some.inj hw
          exact hpos
        · rw [hpar'_ne w hwv] at hw
          exact hv.parentsPos w u' hw
      · -- lvBound
        intro w d hwd
        by_cases hwv : w = v
        · subst hwv
          rw [hlev'v] at hwd
          obtain rfl : L + 1 = d := Option.some.inj hwd
          exact le_refl _
        · rw [lk_upd_ne _ _ hwv] at hwd
          exact hv.lvBound w d hwd
      · -- srcZero
        intro hno
        rw [hpar'v] at hno
        exact absurd hno (by simp)
      · -- srcQueueMid
        intro _
        rw [hpar'v]
        rfl
    · -- discovery of a node other than the source
      have hnolv : lk st.level v = none := by
        rcases hlv : lk st.level v with _ | d
        · rfl
        · have := (hv.lvIffDisc v).1 (by rw [hlv]; rfl)
          rcases this with h | h
          · exact absurd h hvsx
          · rw [hnone] at h
            exact absurd h (by simp)
      have hvq : v ∉ st.queue := by
        intro hmem
        obtain ⟨qa, qb, hq, ha, hb⟩ := hv.qsplit
        rw [hq] at hmem
        rcases List.mem_append.1 hmem with hw | hw
        · rw [ha v hw] at hnolv
          exact Option.noConfusion hnolv
        · rw [hb v hw] at hnolv
          exact Option.noConfusion hnolv
      have hlv_eq : ∀ w, w ≠ v →
          lk (upd st.level v ((lk st.level u).getD 0 + 1)) w = lk st.level w :=
        fun w hw => lk_upd_ne _ _ hw
      have hlv_mono : ∀ w, (lk st.level w).isSome →
          (lk (upd st.level v ((lk st.level u).getD 0 + 1)) w).isSome :=
        fun w hw => lk_upd_isSome _ _ hw
      -- the new node's level is its exact shortest distance
      have hmin_v : minReach R s v (L + 1) := by
        have hreach : posReachLen R s (L + 1) v := by
          rcases hv.srcSide with hleft | ⟨rfl, _, _, rfl⟩
          · -- either u ≠ s, or the source has already been fully expanded
            by_cases hus : u = s
            · subst hus
              have hdisc := hleft v hpos
              rw [hnolv] at hdisc
              exact absurd hdisc (by simp)
            · have hminu : minReach R s u L := hv.lvCorrect u L hus hv.uLevel
              exact ⟨u, hminu.1, hpos⟩
          · exact ⟨u, rfl, hpos⟩
        refine ⟨hreach, ?_⟩
        intro k hk hreachk
        obtain ⟨j, hj, hminj⟩ := reach_exists_min k hreachk
        have : (lk st.level v).isSome := hv.complete v j hminj (by omega)
        rw [hnolv] at this
        exact absurd this (by simp)
      rw [hst]
      refine ⟨?_, ?_, ?_, ?_, ?_, ?_, ?_, ?_, ?_, ?_, ?_, ?_, ?_⟩
      · -- qsplit
        obtain ⟨qa, qb, hq, ha, hb⟩ := hv.qsplit
        refine ⟨qa, qb ++ [v], by simp [hq], ?_, ?_⟩
        · intro w hw
          have hwne : ¬ w = v := fun h => hvq (h ▸ (hq ▸ List.mem_append.2 (Or.inl hw)))
          rw [lk_upd_ne _ _ hwne]
          exact ha w hw
        · intro w hw
          rcases List.mem_append.1 hw with hw' | hw'
          · have hwne : ¬ w = v := fun h => hvq (h ▸ (hq ▸ List.mem_append.2 (Or.inr hw')))
            rw [lk_upd_ne _ _ hwne]
            exact hb w hw'
          · obtain rfl : w = v := List.mem_singleton.1 hw'
            exact hlev'v
      · -- lvCorrect
        intro w d hws hwd
        by_cases hwv : w = v
        · subst hwv
          rw [hlev'v] at hwd
          obtain rfl : L + 1 = d := Option.some.inj hwd
          exact hmin_v
        · rw [hlv_eq w hwv] at hwd
          exact hv.lvCorrect w d hws hwd
      · -- complete
        intro w d hw hd
        exact hlv_mono w (hv.complete w d hw hd)
      · -- expandedMid
        intro w hw hwq hwu x hx
        by_cases hwv : w = v
        · subst hwv
          exact absurd (List.mem_append.2 (Or.inr (List.mem_singleton.2 rfl))) hwq
        · have hw' : (lk st.level w).isSome := by
            rw [hlv_eq w hwv] at hw
            exact hw
          have hwq' : w ∉ st.queue := fun h => hwq (List.mem_append.2 (Or.inl h))
          exact hlv_mono x (hv.expandedMid w hw' hwq' hwu x hx)
      · -- umid
        intro x hx
        rcases hv.umid x hx with hmem | hlv
        · rcases List.mem_cons.1 hmem with rfl | hmem'
          · exact Or.inr (by rw [hlev'v]; rfl)
          · exact Or.inl hmem'
        · exact Or.inr (hlv_mono x hlv)
      · -- uLevel
        exact hlev'u
      · -- uDisc
        rcases hv.uDisc with h | h
        · exact Or.inl h
        · exact Or.inr (lk_append_single_isSome _ _ h)
      · -- srcSide
        rcases hv.srcSide with hleft | ⟨hus, hpn, hl0, hL0⟩
        · left
          intro x hx
          exact hlv_mono x (hleft x hx)
        · right
          refine ⟨hus, ?_, ?_, hL0⟩
          · rw [hpar'_ne s (fun h => hvsx h.symm)]
            exact hpn
          · rw [hlv_eq s (fun h => hvsx h.symm)]
            exact hl0
      · -- lvIffDisc
        intro w
        by_cases hwv : w = v
        · subst hwv
          rw [hlev'v]
          simp [hpar'v]
        · rw [hlv_eq w hwv, hpar'_ne w hwv]
          exact hv.lvIffDisc w
      · -- parentsPos
        intro w u' hw
        by_cases hwv : w = v
        · subst hwv
          rw [hpar'v] at hw
          obtain rfl : u = u' := Option.some.inj hw
          exact hpos
        · rw [hpar'_ne w hwv] at hw
          exact hv.parentsPos w u' hw
      · -- lvBound
        intro w d hwd
        by_cases hwv : w = v
        · subst hwv
          rw [hlev'v] at hwd
          obtain rfl : L + 1 = d := Option.some.inj hwd
          exact le_refl _
        · rw [hlv_eq w hwv] at hwd
          exact hv.lvBound w d hwd
      · -- srcZero
        intro hno
        rw [hpar'_ne s (fun h => hvsx h.symm)] at hno
        rw [hlv_eq s (fun h => hvsx h.symm)]
        exact hv.srcZero hno
      · -- srcQueueMid
        intro hmem
        rcases List.mem_append.1 hmem with hmem' | hmem'
        · rw [hpar'_ne s (fun h => hvsx h.symm)]
          exact hv.srcQueueMid hmem'
        · exact absurd (List.mem_singleton.1 hmem') (fun h => hvsx h.symm)

/-- The whole successor loop preserves the mid-loop invariant down to an
empty remainder. -/
theorem foldInv_fold {R : Graph} {s : Nat} (hs : ¬ posStep R s s)
    {u L : Nat} :
    ∀ (l : List Nat) (st : BfsState), FoldInv R s u L l st →
      FoldInv R s u L [] (l.foldl (bfsVisit R u) st) := by
  intro l
  induction l with
  | nil => intro st h; exact h
  | cons v l' ih =>
    intro st h
    rw [List.foldl_cons]
    exact ih (bfsVisit R u st v) (foldInv_step hs h)

/-- Dequeuing the head `u` of the queue turns the loop invariant into the
mid-loop invariant with all successors of `u` pending. -/
theorem foldInv_init {R : Graph} {s : Nat} {st : BfsState} {L u : Nat}
    {rest : List Nat} (hInv : BfsInv R s st L) (hq : st.queue = u :: rest)
    (huL : lk st.level u = some L) :
    FoldInv R s u L (succs R u) ⟨st.parents, st.level, rest⟩ := by
  refine ⟨?_, hInv.lvCorrect, hInv.complete, ?_, ?_, huL, ?_, ?_,
    hInv.lvIffDisc, hInv.parentsPos, hInv.lvBound, hInv.srcZero, ?_⟩
  · -- qsplit for the remaining queue
    obtain ⟨qa, qb, hqq, ha, hb⟩ := hInv.qsplit
    rcases qa with _ | ⟨qa0, qa'⟩
    · -- the u block would be at level L + 1, contradicting `huL`
      rcases qb with _ | ⟨qb0, qb'⟩
      · rw [hqq] at hq
        exact absurd hq (by simp)
      · rw [hqq] at hq
        simp only [List.nil_append] at hq
        obtain ⟨hqu, hqr⟩ := List.cons.inj hq
        have hbu := hb qb0 (List.mem_cons_self _ _)
        rw [← hqu] at huL
        rw [huL] at hbu
        obtain hL : L = L + 1 := Option.some.inj hbu
        omega
    · rw [hqq] at hq
      simp only [List.cons_append] at hq
      obtain ⟨rfl, rfl⟩ := List.cons.inj hq
      exact ⟨qa', qb, rfl, fun w hw => ha w (List.mem_cons_of_mem _ hw), hb⟩
  · -- expandedMid
    intro w hw hwq hwu x hx
    have : w ∉ st.queue := by
      rw [hq]
      intro hmem
      rcases List.mem_cons.1 hmem with rfl | hmem'
      · exact hwu rfl
      · exact hwq hmem'
    exact hInv.expanded w hw this x hx
  · -- umid: everything is still pending
    intro x hx
    exact Or.inl (posStep_mem_succs hx)
  · -- uDisc
    exact (hInv.lvIffDisc u).1 (by rw [huL]; rfl)
  · -- srcSide
    rcases hInv.srcDone with ⟨hq1, hp1, hl1, hL1⟩ | hr
    · right
      rw [hq1] at hq
      obtain ⟨rfl, -⟩ := List.cons.inj hq
      exact ⟨rfl, by rw [hp1]; rfl, by rw [hl1]; simp [lk], hL1⟩
    · exact Or.inl hr
  · -- srcQueueMid
    intro hmem
    have hmem' : s ∈ st.queue := by
      rw [hq]
      exact List.mem_cons_of_mem _ hmem
    rcases hInv.srcQueue hmem' with h | ⟨hq1, -⟩
    · exact h
    · rw [hq1] at hq
      obtain ⟨-, hrest⟩ := List.cons.inj hq
      rw [← hrest] at hmem
      exact absurd hmem (List.not_mem_nil s)

/-- Finishing the successor loop of `u` restores the loop invariant. -/
theorem foldInv_final {R : Graph} {s : Nat} {u L : Nat} {st : BfsState}
    (h : FoldInv R s u L [] st) : BfsInv R s st L := by
  refine ⟨h.qsplit, h.lvCorrect, h.complete, ?_, ?_, h.lvIffDisc,
    h.parentsPos, h.lvBound, h.srcZero, fun hm => Or.inl (h.srcQueueMid hm)⟩
  · -- expanded, now including u itself
    intro w hw hwq x hx
    by_cases hwu : w = u
    · subst hwu
      rcases h.umid x hx with hmem | hlv
      · exact absurd hmem (List.not_mem_nil x)
      · exact hlv
    · exact h.expandedMid w hw hwq hwu x hx
  · -- srcDone
    right
    rcases h.srcSide with hleft | ⟨rfl, -, -, -⟩
    · exact hleft
    · intro x hx
      rcases h.umid x hx with hmem | hlv
      · exact absurd hmem (List.not_mem_nil x)
      · exact hlv

/-- When the whole queue has moved to level `L + 1`, the invariant shifts
to the next layer. -/
theorem bfsInv_shift {R : Graph} {s : Nat} {st : BfsState} {L : Nat}
    (hInv : BfsInv R s st L)
    (hq : ∀ v ∈ st.queue, lk st.level v = some (L + 1)) :
    BfsInv R s st (L + 1) := by
  have hsrc : ∀ v, posStep R s v → (lk st.level v).isSome := by
    rcases hInv.srcDone with ⟨hq1, hp1, hl1, hL1⟩ | hr
    · -- the initial state cannot have its whole queue at level L + 1
      exfalso
      have hmem : s ∈ st.queue := by
        rw [hq1]
        exact List.mem_cons_self _ _
      have := hq s hmem
      rw [hl1] at this
      simp only [lk, reduceIte] at this
      obtain h01 : 0 = L + 1 := Option.some.inj this
      omega
    · exact hr
  refine ⟨⟨st.queue, [], by simp, hq, by simp⟩, hInv.lvCorrect, ?_,
    hInv.expanded, Or.inr hsrc, hInv.lvIffDisc, hInv.parentsPos, ?_,
    hInv.srcZero, hInv.srcQueue⟩
  · -- completeness one layer deeper
    intro v d hv hd
    rcases Nat.lt_or_ge d (L + 1) with hlt | hge
    · exact hInv.complete v d hv (by omega)
    · obtain rfl : d = L + 1 := by omega
      obtain ⟨w, hw, hstep⟩ := minReach_succ_decomp hv
      by_cases hws : w = s
      · subst hws
        exact hsrc v hstep
      · have hwlv : lk st.level w = some L := by
          have hsome := hInv.complete w L hw (le_refl L)
          rcases hlk : lk st.level w with _ | d'
          · rw [hlk] at hsome
            exact absurd hsome (by simp)
          · have := hInv.lvCorrect w d' hws hlk
            obtain rfl : L = d' := minReach_unique hw this
            rfl
        have hwq : w ∉ st.queue := by
          intro hmem
          have := hq w hmem
          rw [hwlv] at this
          obtain hL : L = L + 1 := Option.some.inj this
          omega
        exact hInv.expanded w (by rw [hwlv]; rfl) hwq v hstep
  · -- level bound one layer deeper
    intro v d hv
    exact le_trans (hInv.lvBound v d hv) (by omega)

/-- The invariant holds at the initial state of `level_bfs`. -/
theorem bfsInv_start (R : Graph) (s : Nat) :
    BfsInv R s ⟨[], [(s, 0)], [s]⟩ 0 := by
  refine ⟨⟨[s], [], by simp, ?_, by simp⟩, ?_, ?_, ?_, ?_, ?_, ?_, ?_, ?_, ?_⟩
  · intro v hv
    obtain rfl : v = s := List.mem_singleton.1 hv
    simp [lk]
  · intro v d hvs hvd
    simp only [lk] at hvd
    split at hvd
    · exact absurd (by assumption : s = v).symm hvs
    · exact Option.noConfusion hvd
  · intro v d hv hd
    obtain rfl : d = 0 := by omega
    have : v = s := hv.1
    subst this
    simp [lk]
  · intro u hu huq x hx
    exfalso
    simp only [lk] at hu
    by_cases hus : s = u
    · exact huq (by simp [← hus])
    · rw [if_neg hus] at hu
      exact absurd hu (by simp)
  · exact Or.inl ⟨rfl, rfl, rfl, rfl⟩
  · intro v
    simp only [lk]
    by_cases hvs : s = v
    · simp [hvs]
    · have hvs' : ¬ v = s := fun h => hvs h.symm
      simp [hvs, hvs']
  · intro v u hv
    simp [lk] at hv
  · intro v d hv
    simp only [lk] at hv
    split at hv
    · obtain rfl : (0 : Nat) = d := Option.some.inj hv
      omega
    · exact Option.noConfusion hv
  · intro _
    simp [lk]
  · intro _
    exact Or.inr ⟨rfl, rfl⟩

/-- The `while` loop of `level_bfs` preserves the invariant up to its
final state. -/
theorem bfsLoop_inv {R : Graph} {s : Nat} (hs : ¬ posStep R s s) (t : Nat) :
    ∀ (fuel : Nat) (st : BfsState) (L : Nat) (st' : BfsState),
      BfsInv R s st L → bfsLoop R t fuel st = .ok st' →
      ∃ L', BfsInv R s st' L' := by
  intro fuel
  induction fuel with
  | zero =>
    intro st L st' _ h
    exact Except.noConfusion h
  | succ k ih =>
    intro st L st' hInv hrun
    rcases hq : st.queue with _ | ⟨u, rest⟩
    · have hst : st = st' := by
        rw [show bfsLoop R t (k + 1) st = .ok st from by
          simp only [bfsLoop, hq]] at hrun
        exact Except.ok.inj hrun
      exact ⟨L, hst ▸ hInv⟩
    · by_cases ht : (lk st.parents t).isSome
      · have hst : st = st' := by
          rw [show bfsLoop R t (k + 1) st = .ok st from by
            simp only [bfsLoop, hq, ht, reduceIte]] at hrun
          exact Except.ok.inj hrun
        exact ⟨L, hst ▸ hInv⟩
      · by_cases hu : u ∈ R.nodes
        · have hrun' : bfsLoop R t k
              ((succs R u).foldl (bfsVisit R u)
                ⟨st.parents, st.level, rest⟩) = .ok st' := by
            rw [show bfsLoop R t (k + 1) st = bfsLoop R t k
                ((succs R u).foldl (bfsVisit R u)
                  ⟨st.parents, st.level, rest⟩) from by
              simp [bfsLoop, hq, ht, hu]] at hrun
            exact hrun
          -- find the level of the dequeued node and normalise the layer
          obtain ⟨qa, qb, hqq, ha, hb⟩ := hInv.qsplit
          rcases qa with _ | ⟨qa0, qa'⟩
          · -- the whole queue is at level L + 1: shift the invariant
            have hql : ∀ v ∈ st.queue, lk st.level v = some (L + 1) := by
              intro v hv
              rw [hqq] at hv
              exact hb v (by simpa using hv)
            have hInv' := bfsInv_shift hInv hql
            have huL : lk st.level u = some (L + 1) :=
              hql u (by rw [hq]; exact List.mem_cons_self _ _)
            exact ih _ (L + 1) st'
              (foldInv_final (foldInv_fold hs _ _ (foldInv_init hInv' hq huL)))
              hrun'
          · have huL : lk st.level u = some L := by
              rw [hqq] at hq
              simp only [List.cons_append] at hq
              obtain ⟨hqu, -⟩ := List.cons.inj hq
              rw [← hqu]
              exact ha qa0 (List.mem_cons_self _ _)
            exact ih _ L st'
              (foldInv_final (foldInv_fold hs _ _ (foldInv_init hInv hq huL)))
              hrun'
        · rw [show bfsLoop R t (k + 1) st =
              .error "NetworkXError: the node is not in the digraph" from by
            simp [bfsLoop, hq, ht, hu]] at hrun
          exact Except.noConfusion hrun

/-- A successful `level_bfs` run's result satisfies the loop invariant. -/
theorem level_bfs_inv {R : Graph} {s t : Nat}
    {flow : List ((Nat × Nat) × Int)} {p l : List (Nat × Nat)}
    (hs : ¬ posStep R s s) (hok : level_bfs R flow s t = .ok (p, l)) :
    ∃ st' L', st'.parents = p ∧ st'.level = l ∧ BfsInv R s st' L' := by
  unfold level_bfs at hok
  rcases hloop : bfsLoop R t (R.nodes.length + 2)
      ⟨[], [(s, 0)], [s]⟩ with m | st'
  · rw [hloop] at hok
    exact Except.noConfusion hok
  · rw [hloop] at hok
    obtain ⟨L', hInv⟩ := bfsLoop_inv hs t _ _ 0 st' (bfsInv_start R s) hloop
    obtain ⟨hp, hl⟩ : st'.parents = p ∧ st'.level = l := by
      have := Except.ok.inj hok
      exact ⟨congrArg Prod.fst this, congrArg Prod.snd this⟩
    exact ⟨st', L', hp, hl, hInv⟩

/-- Two nodes on a positive-residual cycle through the source. -/
def Rc2 : Graph := ⟨[0, 1], [(0, 1, 5), (1, 0, 5)]⟩

/-- A positive self-loop at the source next to an ordinary edge. -/
def Rc2b : Graph := ⟨[0, 1], [(0, 0, 3), (0, 1, 5)]⟩

/-- Diamond used for the early-exit claim: both 3 and 4 are two hops from
the source, but the search breaks after discovering 3. -/
def Rc3 : Graph := ⟨[0, 1, 2, 3, 4], [(0, 1, 5), (0, 2, 5), (1, 3, 5), (2, 4, 5)]⟩

/-- C2, counterexample.  (i) On a cycle back to the source, the source does
not keep the level 0 of its earliest discovery: the `v not in parents` test
never protects the source, so its level is overwritten to 2.  (ii) With a
positive self-loop at the source, even a non-source node's level stops
being its shortest hop distance: node 1 at distance 1 is assigned level 2,
because the self-loop visit overwrites `level[0]` before node 1 is
discovered in the same iteration. -/
theorem c2_level_bfs_counterexample :
    (level_bfs Rc2 [] 0 9 = .ok ([(1, 0), (0, 1)], [(0, 2), (1, 1)]) ∧
      lk [((0 : Nat), (2 : Nat)), (1, 1)] 0 = some 2 ∧ (2 : Nat) ≠ 0) ∧
    (level_bfs Rc2b [] 0 9 = .ok ([(0, 0), (1, 0)], [(0, 1), (1, 2)]) ∧
      lk [((0 : Nat), (1 : Nat)), (1, 2)] 1 = some 2 ∧
      minReach Rc2b 0 1 1 ∧ (2 : Nat) ≠ 1) := by
  refine ⟨⟨by decide, by decide, by decide⟩,
    by decide, by decide, ⟨⟨0, rfl, by decide⟩, ?_⟩, by decide⟩
  intro k hk hr
  obtain rfl : k = 0 := by omega
  exact absurd (show (1 : Nat) = 0 from hr) (by decide)

/-- C2, amended.  Provided the source has no positive-residual self-loop:
only positive-residual edges are traversed (every parents entry `(v, u)`
crosses such an edge), every non-source node in the returned level map
carries exactly its shortest positive-residual hop distance from the
source (assigned once, at first discovery), and the source keeps its
initial level 0 unless a positive-residual cycle re-enters it into
`parents`, in which case its level is overwritten. -/
theorem c2_level_bfs_amended (R : Graph) (flow : List ((Nat × Nat) × Int))
    (s t : Nat) (p l : List (Nat × Nat)) (hs : capD R s s ≤ 0)
    (hok : level_bfs R flow s t = .ok (p, l)) :
    (∀ v u, lk p v = some u → 0 < capD R u v) ∧
    (∀ v d, v ≠ s → lk l v = some d → minReach R s v d) ∧
    (lk p s = none → lk l s = some 0) := by
  have hs' : ¬ posStep R s s := fun h => absurd hs (not_le.2 h)
  obtain ⟨st', L', hp, hl, hInv⟩ := level_bfs_inv hs' hok
  subst hp
  subst hl
  exact ⟨hInv.parentsPos, hInv.lvCorrect, hInv.srcZero⟩

/-- C2, witness: the cycle instance (no self-loop at the source). -/
theorem c2_level_bfs_witness :
    (∀ v u, lk [((1 : Nat), (0 : Nat)), (0, 1)] v = some u → 0 < capD Rc2 u v) ∧
    (∀ v d, v ≠ 0 → lk [((0 : Nat), (2 : Nat)), (1, 1)] v = some d →
      minReach Rc2 0 v d) ∧
    (lk [((1 : Nat), (0 : Nat)), (0, 1)] 0 = none →
      lk [((0 : Nat), (2 : Nat)), (1, 1)] 0 = some 0) :=
  c2_level_bfs_amended Rc2 [] 0 9 [(1, 0), (0, 1)] [(0, 2), (1, 1)]
    (by decide) (by decide)

/-- C3, counterexample.  The search stops at the first `while` check after
the sink (node 3, level 2) enters `parents`; the sink is never dequeued
and node 4 — reachable in 2 hops, the sink's own level — is missing from
the returned level map, so the sink's level is not processed fully. -/
theorem c3_early_exit_counterexample :
    level_bfs Rc3 [] 0 3 =
      .ok ([(1, 0), (2, 0), (3, 1)], [(0, 0), (1, 1), (2, 1), (3, 2)]) ∧
    lk [((0 : Nat), (0 : Nat)), (1, 1), (2, 1), (3, 2)] 3 = some 2 ∧
    posReachLen Rc3 0 2 4 ∧
    lk [((0 : Nat), (0 : Nat)), (1, 1), (2, 1), (3, 2)] 4 = none := by
  refine ⟨by decide, by decide, ⟨2, ⟨0, rfl, by decide⟩, by decide⟩, by decide⟩

/-- C3, amended.  The level map returned after an early exit is complete
only strictly below the sink's level: provided the source has no
positive-residual self-loop, every node whose shortest positive-residual
hop distance is smaller than the sink's recorded level appears in the
returned level map.  Nodes at the sink's own level may be missing, because
the loop breaks at the first check after the sink is discovered, without
dequeuing it or finishing its level. -/
theorem c3_level_bfs_amended (R : Graph) (flow : List ((Nat × Nat) × Int))
    (s t : Nat) (p l : List (Nat × Nat)) (dt : Nat) (hs : capD R s s ≤ 0)
    (hok : level_bfs R flow s t = .ok (p, l)) (hdt : lk l t = some dt) :
    ∀ v k, minReach R s v k → k < dt → (lk l v).isSome := by
  have hs' : ¬ posStep R s s := fun h => absurd hs (not_le.2 h)
  obtain ⟨st', L', hp, hl, hInv⟩ := level_bfs_inv hs' hok
  subst hl
  intro v k hmin hk
  have hbound : dt ≤ L' + 1 := hInv.lvBound t dt hdt
  exact hInv.complete v k hmin (by omega)

/-- C3, witness at the diamond instance: the sink's level is 2 and node 1,
at distance 1 < 2, is present in the returned level map. -/
theorem c3_level_bfs_witness :
    (lk [((0 : Nat), (0 : Nat)), (1, 1), (2, 1), (3, 2)] 1).isSome :=
  c3_level_bfs_amended Rc3 [] 0 3 [(1, 0), (2, 0), (3, 1)]
    [(0, 0), (1, 1), (2, 1), (3, 2)] 2 (by decide) (by decide) (by decide)
    1 1
    ⟨⟨0, rfl, by decide⟩, fun k hk hr => by
      obtain rfl : k = 0 := by omega
      exact absurd (show (1 : Nat) = 0 from hr) (by decide)⟩
    (by decide)

end Dinitz
